import Mathlib

/-!
Potential-field planner (`src/potential_field.cpp`).

A shallow embedding of the class `PotentialField` and of its member functions
`calculateAttractivePotential`, `calculateRepulsivePotential`,
`generatePotentialMap` and `plan`.

Conventions of the embedding.

* A `float` is a rational number and `+ - * /` are exact: infinities and NaN
  are not modelled, and neither is rounding error, except in the sections on the
  index conversions, on the map dimensions and on the bounds of the constructor,
  where it decides the property at stake: there every operation is followed by
  a rounding `rnd`, of which `roundF32` is the one of the hardware and `id` the
  exact one.  The largest finite float, `std::numeric_limits<float>::max()`, is
  the rational constant `FLT_MAX`; a rational beyond it stands for a result
  that is an infinity in the source (`IsFiniteFloat`).
* `std::hypot` is library code.  It is a parameter `hypot : ℚ → ℚ → ℚ` of every
  function that calls it, and a theorem states as a hypothesis whatever it needs
  to know about it.  `hypotQ` is one computable instance.
* An `int` is an integer of `ℤ`; the conversion of an `int` to `size_t`, which
  the comparisons against `vector::size()` and `operator[]` perform, is
  `toSizeT` (reduction modulo `2 ^ 64`).  Where a theorem needs an index or a
  map dimension to be a value of the 32-bit `int`, it says so with `IsInt`.
* `std::vector` is `List`.  A vector constructed with a negative `int` count asks
  for more than `max_size()` elements and throws `std::length_error`; an
  `operator[]` outside the vector is undefined behaviour.  Both are results of
  their own (`PlanResult.lengthError`, `PlanResult.indexError`).
* A quotient with divisor zero is an infinity or a NaN in the source and `0`
  here: the embedding is about non-zero `reso_` and `rr_`.
* The `while` loop of `plan` takes a fuel argument; running out of fuel is the
  result `PlanResult.outOfFuel`.
* The Gnuplot calls only write to the plotting pipe and are left out.
-/

namespace PotentialFieldPlanner

/-! ## Library constants and functions -/

/-- The value of `std::numeric_limits<float>::max()`, `(2 - 2^-23) * 2^127`. -/
def FLT_MAX : ℚ := (2 - 1 / 2 ^ 23) * 2 ^ 127

/-- The function `std::round` followed by the conversion to `int`: the nearest
integer, a half rounded away from zero. -/
def cppRound (q : ℚ) : ℤ :=
  if 0 ≤ q then ⌊q + 1 / 2⌋ else ⌈q - 1 / 2⌉

/-- The conversion of an `int` to `size_t` (64 bits). -/
def toSizeT (i : ℤ) : ℕ := (i % 2 ^ 64).toNat

/-- A computable instance of `std::hypot` on the rationals: the square root of
`x * x + y * y` with numerator and denominator rounded down to integers, exact
whenever the square root is rational. -/
def hypotQ (x y : ℚ) : ℚ := Rat.sqrt (x * x + y * y)

/-! ## The class -/

/-- The type `Path` of the header: a vector of `(x, y)` waypoints. -/
abbrev Path := List (ℚ × ℚ)

/-- The data members of `PotentialField`.  `motion_model_` is declared in the
header `potential_field.hpp`; its entries are the `(dx, dy)` offsets that
`plan` iterates over. -/
structure PotentialField where
  ox_ : List ℚ
  oy_ : List ℚ
  reso_ : ℚ
  rr_ : ℚ
  kp_ : ℚ
  eta_ : ℚ
  area_width_ : ℚ
  minx_ : ℚ
  miny_ : ℚ
  maxx_ : ℚ
  maxy_ : ℚ
  motion_model_ : List (ℤ × ℤ)
  pmap_ : List (List ℚ)

/-- The value `*std::min_element(v.begin(), v.end())`; `none` on an empty
vector, where the source dereferences `end()`. -/
def minElement : List ℚ → Option ℚ
  | [] => none
  | a :: as => some (as.foldl min a)

/-- The value `*std::max_element(v.begin(), v.end())`; `none` on an empty
vector. -/
def maxElement : List ℚ → Option ℚ
  | [] => none
  | a :: as => some (as.foldl max a)

/-- The constructor (lines 4-16): it stores its arguments and computes the
bounds from the obstacle extrema and half of `area_width`.  `pmap_` starts
empty.  The result is `none` when an obstacle vector is empty. -/
def construct (motion : List (ℤ × ℤ)) (ox oy : List ℚ)
    (reso robot_radius kp eta area_width : ℚ) : Option PotentialField :=
  match minElement ox, minElement oy, maxElement ox, maxElement oy with
  | some mnx, some mny, some mxx, some mxy =>
    some
      { ox_ := ox, oy_ := oy, reso_ := reso, rr_ := robot_radius, kp_ := kp,
        eta_ := eta, area_width_ := area_width,
        minx_ := mnx - area_width / 2, miny_ := mny - area_width / 2,
        maxx_ := mxx + area_width / 2, maxy_ := mxy + area_width / 2,
        motion_model_ := motion, pmap_ := [] }
  | _, _, _, _ => none

/-! ## The two potentials -/

/-- Lines 20-23: `0.5f * kp_ * std::hypot(x - gx, y - gy)`. -/
def calculateAttractivePotential (hypot : ℚ → ℚ → ℚ) (f : PotentialField)
    (x y gx gy : ℚ) : ℚ :=
  1 / 2 * f.kp_ * hypot (x - gx) (y - gy)

/-- Lines 27-33: the scan for the closest obstacle, from
`min_dist = FLT_MAX`.  The loop index runs over `ox_` and the body reads
`ox_[i]` and `oy_[i]`: the pairs visited are those of `List.zip`.  Where `oy_`
is shorter than `ox_` the source goes on to read outside `oy_`; the scan here
stops at the last pair. -/
def closestObstacleDistance (hypot : ℚ → ℚ → ℚ) (f : PotentialField)
    (x y : ℚ) : ℚ :=
  (List.zip f.ox_ f.oy_).foldl
    (fun min_dist o =>
      let d := hypot (x - o.1) (y - o.2)
      if d ≤ min_dist then d else min_dist)
    FLT_MAX

/-- Lines 38-39: the floor of `0.1` applied to `dq`. -/
def clampDq (dq : ℚ) : ℚ := if dq ≤ 1 / 10 then 1 / 10 else dq

/-- Lines 25-44. -/
def calculateRepulsivePotential (hypot : ℚ → ℚ → ℚ) (f : PotentialField)
    (x y : ℚ) : ℚ :=
  let dq := closestObstacleDistance hypot f x y
  if dq ≤ f.rr_ then
    1 / 2 * f.eta_ * (1 / clampDq dq - 1 / f.rr_) ^ 2
  else
    0

/-! ## The potential map -/

/-- The world coordinate of a grid index (lines 55, 57, 111, 112):
`i * reso_ + min`. -/
def gridToWorld (f : PotentialField) (i : ℤ) (min : ℚ) : ℚ :=
  (i : ℚ) * f.reso_ + min

/-- The grid index of a world coordinate (lines 84-87):
`std::round((c - min) / reso_)`. -/
def worldToGrid (f : PotentialField) (c min : ℚ) : ℤ :=
  cppRound ((c - min) / f.reso_)

/-- Line 49 in exact arithmetic: the number of cells along the x axis.
`xwRounded` states the line with the rounding of its `float` operations. -/
def xw (f : PotentialField) : ℤ := cppRound ((f.maxx_ - f.minx_) / f.reso_)

/-- Line 50 in exact arithmetic: the number of cells along the y axis.
`ywRounded` states the line with the rounding of its `float` operations. -/
def yw (f : PotentialField) : ℤ := cppRound ((f.maxy_ - f.miny_) / f.reso_)

/-- Lines 55-61: the value stored in cell `(ix, iy)`, `uf = uo + ug`. -/
def cellPotential (hypot : ℚ → ℚ → ℚ) (f : PotentialField) (gx gy : ℚ)
    (ix iy : ℕ) : ℚ :=
  let x := gridToWorld f ix f.minx_
  let y := gridToWorld f iy f.miny_
  let ug := calculateAttractivePotential hypot f x y gx gy
  let uo := calculateRepulsivePotential hypot f x y
  uo + ug

/-- Lines 48-63.  The new value of the object, with `pmap_` replaced by a grid
of `xw` vectors of `yw` values each; `none` when `xw` or `yw` is negative, where
a vector constructor of line 53 throws `std::length_error`. -/
def generatePotentialMap (hypot : ℚ → ℚ → ℚ) (f : PotentialField)
    (gx gy : ℚ) : Option PotentialField :=
  if xw f < 0 ∨ yw f < 0 then none
  else
    some { f with
      pmap_ := (List.range (xw f).toNat).map fun ix =>
        (List.range (yw f).toNat).map fun iy => cellPotential hypot f gx gy ix iy }

/-! ## The search -/

/-- The outcome of a call of `plan`. -/
inductive PlanResult where
  /-- The call returns this path. -/
  | done (path : Path)
  /-- A vector constructor of `generatePotentialMap` throws. -/
  | lengthError
  /-- The loop reads `pmap_` outside a vector. -/
  | indexError
  /-- The loop is still running when the fuel is spent. -/
  | outOfFuel
  deriving DecidableEq, Repr

/-- Lines 96-102: the potential `p` of the candidate cell `(inx, iny)`.  The
two comparisons convert the `int` to `size_t`, and `||` does not evaluate
`pmap_[0].size()` when its left operand holds.  `none` is a read outside a
vector. -/
def candidatePotential (f : PotentialField) (inx iny : ℤ) : Option ℚ :=
  if f.pmap_.length ≤ toSizeT inx then some FLT_MAX
  else
    match f.pmap_[0]? with
    | none => none
    | some row0 =>
      if row0.length ≤ toSizeT iny then some FLT_MAX
      else
        match f.pmap_[toSizeT inx]? with
        | none => none
        | some row => row[toSizeT iny]?

/-- One pass of the body of the `for` loop (lines 95-107) over the running
minimum `(min_p, minix, miniy)`. -/
def searchUpdate (f : PotentialField) (ix iy : ℤ)
    (acc : Option (ℚ × ℤ × ℤ)) (m : ℤ × ℤ) : Option (ℚ × ℤ × ℤ) :=
  match acc with
  | none => none
  | some (min_p, minix, miniy) =>
    let inx := ix + m.1
    let iny := iy + m.2
    match candidatePotential f inx iny with
    | none => none
    | some p => if p < min_p then some (p, inx, iny) else some (min_p, minix, miniy)

/-- Lines 91-108: the `for` loop over the motion model, from
`min_p = FLT_MAX`, `minix = -1`, `miniy = -1`. -/
def searchNeighbours (f : PotentialField) (ix iy : ℤ) : Option (ℚ × ℤ × ℤ) :=
  f.motion_model_.foldl (searchUpdate f ix iy) (some (FLT_MAX, -1, -1))

/-- Lines 90-126: the `while` loop, `fuel` bounding the number of passes. -/
def planLoop (hypot : ℚ → ℚ → ℚ) (f : PotentialField) (gx gy : ℚ) :
    ℕ → ℤ → ℤ → ℚ → Path → PlanResult
  | 0, _, _, d, path => if f.reso_ ≤ d then .outOfFuel else .done path
  | fuel + 1, ix, iy, d, path =>
    if f.reso_ ≤ d then
      match searchNeighbours f ix iy with
      | none => .indexError
      | some (_, minix, miniy) =>
        let xp := gridToWorld f minix f.minx_
        let yp := gridToWorld f miniy f.miny_
        planLoop hypot f gx gy fuel minix miniy (hypot (gx - xp) (gy - yp))
          (path ++ [(xp, yp)])
    else .done path

/-- Lines 79-130.  The indices `gix` and `giy` of lines 86-87 are computed and
never read. -/
def plan (hypot : ℚ → ℚ → ℚ) (f : PotentialField) (sx sy gx gy : ℚ)
    (fuel : ℕ) : PlanResult :=
  match generatePotentialMap hypot f gx gy with
  | none => .lengthError
  | some g =>
    let d := hypot (sx - gx) (sy - gy)
    let ix := worldToGrid g sx g.minx_
    let iy := worldToGrid g sy g.miny_
    planLoop hypot g gx gy fuel ix iy d []

/-! ## The index conversions under rounding

The `float` operations of the hardware round their exact result.  For the two
conversions between a grid index and a world coordinate the rounding decides
whether the one undoes the other, so they are stated here with the rounding
`rnd` of every operation; `rnd = id` gives `gridToWorld` and `worldToGrid`. -/

/-- The nearest integer, a half rounded to the even neighbour. -/
def roundHalfEven (q : ℚ) : ℤ :=
  let n := ⌊q⌋
  if q - n < 1 / 2 then n
  else if 1 / 2 < q - n then n + 1
  else if n % 2 = 0 then n else n + 1

/-- The rounding of IEEE 754 binary32 (`float`), to nearest and ties to even: in
the binade `2^e ≤ |q| < 2^(e+1)` the floats are the multiples of `2^(e-23)`, and
below `2^-126` those of `2^-149`.  A result beyond `FLT_MAX`, which the hardware
replaces by an infinity, is left as it is. -/
def roundF32 (q : ℚ) : ℚ :=
  if q = 0 then 0
  else
    let e := max (Int.log 2 |q|) (-126)
    roundHalfEven (q / 2 ^ (e - 23)) * 2 ^ (e - 23)

/-- Lines 55, 57, 111, 112 with the rounding of the conversion of the `int`, of
the product and of the sum. -/
def gridToWorldRounded (rnd : ℚ → ℚ) (f : PotentialField) (i : ℤ) (min : ℚ) : ℚ :=
  rnd (rnd (rnd (i : ℚ) * f.reso_) + min)

/-- Lines 84-87 with the rounding of the difference and of the quotient. -/
def worldToGridRounded (rnd : ℚ → ℚ) (f : PotentialField) (c min : ℚ) : ℤ :=
  cppRound (rnd (rnd (c - min) / f.reso_))

/-- Modelled from the spec: the motion model of §3, "all (dx,dy) with dx,dy ∈
{-1,0,1} excluding (0,0)"; the header that declares `motion_model_` is not part
of the sources, and the order of the entries is a choice made here. -/
def motionModel8 : List (ℤ × ℤ) :=
  [(1, 0), (0, 1), (-1, 0), (0, -1), (-1, -1), (-1, 1), (1, -1), (1, 1)]

/-! ## The repulsive potential as the specification words it -/

/-- The distance from `(x, y)` to the nearest obstacle: the least of the
distances to the obstacles, `none` when there is no obstacle. -/
def nearestObstacleDistance (hypot : ℚ → ℚ → ℚ) (f : PotentialField)
    (x y : ℚ) : Option ℚ :=
  ((List.zip f.ox_ f.oy_).map fun o => hypot (x - o.1) (y - o.2)).min?

/-- The expression `0.5 * eta * (1/dq - 1/robot_radius)^2`. -/
def repulsion (f : PotentialField) (dq : ℚ) : ℚ :=
  1 / 2 * f.eta_ * (1 / dq - 1 / f.rr_) ^ 2

/-- The repulsive potential of §4.1: `dq` is the distance to the nearest
obstacle clamped to a floor of `0.1`; the value is the repulsion at `dq` if that
clamped `dq` is at most `robot_radius`, and `0` otherwise. -/
def specRepulsivePotential (hypot : ℚ → ℚ → ℚ) (f : PotentialField)
    (x y : ℚ) : ℚ :=
  match nearestObstacleDistance hypot f x y with
  | none => 0
  | some d =>
    let dq := max d (1 / 10)
    if dq ≤ f.rr_ then repulsion f dq else 0

/-! ## Concrete fields -/

/-- One obstacle at the origin, `reso = 1`, `robot_radius = 1/2`, `kp = 1`,
`eta = 1`, `area_width = 2`: a map of two by two cells, at the world
coordinates `-1` and `0` on each axis. -/
def smallField : PotentialField :=
  { ox_ := [0], oy_ := [0], reso_ := 1, rr_ := 1 / 2, kp_ := 1, eta_ := 1,
    area_width_ := 2, minx_ := -1, miny_ := -1, maxx_ := 1, maxy_ := 1,
    motion_model_ := motionModel8, pmap_ := [] }

/-- The field `smallField` after `generatePotentialMap(0, -1)`. -/
def smallFieldMapped : PotentialField :=
  { smallField with pmap_ := [[1 / 2, 1 / 2], [0, 65 / 2]] }

/-- The field `smallField` with a robot radius of `1/20`, below the floor of
`0.1`. -/
def thinField : PotentialField := { smallField with rr_ := 1 / 20 }

/-- One obstacle at `x = -(2^27 - 8)`, `reso = 1/2`, `area_width = 16`: the
bounds are `minx = -2^27` and `maxx = -(2^27 - 16)`, all of them floats, and the
map has 32 by 32 cells. -/
def farField : PotentialField :=
  { ox_ := [-134217720], oy_ := [0], reso_ := 1 / 2, rr_ := 5, kp_ := 5, eta_ := 100,
    area_width_ := 16, minx_ := -134217728, miny_ := -8, maxx_ := -134217712,
    maxy_ := 8, motion_model_ := motionModel8, pmap_ := [] }

/-- The object that the constructor builds from two obstacle abscissas and one
ordinate. -/
def mismatchedField : PotentialField :=
  { ox_ := [0, 1], oy_ := [0], reso_ := 1, rr_ := 1 / 2, kp_ := 1, eta_ := 1,
    area_width_ := 2, minx_ := -1, miny_ := -1, maxx_ := 2, maxy_ := 1,
    motion_model_ := motionModel8, pmap_ := [] }

/-- The field constructed from one obstacle at the origin with
`area_width = 0`: the four bounds are `0`. -/
def flatField : PotentialField :=
  { smallField with area_width_ := 0, minx_ := 0, miny_ := 0, maxx_ := 0, maxy_ := 0 }

/-- The field constructed from one obstacle at the origin with `reso = 1` and
`area_width = 1`: the bounds are `-1/2` and `1/2` and the map has the single
cell `(0, 0)`, at the world coordinate `(-1/2, -1/2)`. -/
def unitField : PotentialField :=
  { smallField with
    area_width_ := 1
    minx_ := -1 / 2
    miny_ := -1 / 2
    maxx_ := 1 / 2
    maxy_ := 1 / 2 }

/-- The field `unitField` after `generatePotentialMap(-3/2, -3/2)`. -/
def unitFieldMapped : PotentialField := { unitField with pmap_ := [[1 / 2]] }

/-- The field `smallField` with the attractive gain `kp = FLT_MAX`. -/
def steepField : PotentialField := { smallField with kp_ := FLT_MAX }

/-- The field `steepField` after `generatePotentialMap(3, 3)`: every stored
potential is at least `2 * FLT_MAX`. -/
def steepFieldMapped : PotentialField :=
  { steepField with
    pmap_ := [[5 / 2 * FLT_MAX, 5 / 2 * FLT_MAX], [5 / 2 * FLT_MAX, 32 + 2 * FLT_MAX]] }

/-! ## The states of the search -/

/-- The values of the type `int` (32 bits). -/
def IsInt (z : ℤ) : Prop := -2 ^ 31 ≤ z ∧ z < 2 ^ 31

/-- The cell `(ix, iy)` is inside the map: `0 ≤ ix < xw` and `0 ≤ iy < yw`. -/
def InMap (f : PotentialField) (ix iy : ℤ) : Prop :=
  0 ≤ ix ∧ ix < xw f ∧ 0 ≤ iy ∧ iy < yw f

/-- The shape that line 53 gives to `pmap_`: `xw` vectors of `yw` values. -/
def MapShaped (f : PotentialField) : Prop :=
  0 ≤ xw f ∧ 0 ≤ yw f ∧ (f.pmap_.length : ℤ) = xw f ∧
    ∀ row ∈ f.pmap_, (row.length : ℤ) = yw f

/-- The value `pmap_[ix][iy]` of a cell with non-negative indices, `none`
outside the vectors. -/
def storedPotential (f : PotentialField) (ix iy : ℤ) : Option ℚ :=
  match f.pmap_[ix.toNat]? with
  | none => none
  | some row => row[iy.toNat]?

/-- The condition under which the loop body reaches the read of line 101: both
operands of the `||` of line 98 are false. -/
def readsMap (f : PotentialField) (inx iny : ℤ) : Prop :=
  toSizeT inx < f.pmap_.length ∧
    ∀ row0, f.pmap_[0]? = some row0 → toSizeT iny < row0.length

/-- The potential `p` that the body of the `for` loop gives to the neighbour at
the offset `m` of the cell `(ix, iy)`, where line 101 does not read outside a
vector. -/
def neighbourPotential (f : PotentialField) (ix iy : ℤ) (m : ℤ × ℤ) : ℚ :=
  (candidatePotential f (ix + m.1) (iy + m.2)).getD FLT_MAX

/-- Lines 91-114: one pass of the body of the `while` loop from the cell
`(ix, iy)`, giving the new cell, the new distance `d` and the new path; `none`
is a read outside `pmap_`. -/
def planStep (hypot : ℚ → ℚ → ℚ) (f : PotentialField) (gx gy : ℚ)
    (ix iy : ℤ) (path : Path) : Option (ℤ × ℤ × ℚ × Path) :=
  match searchNeighbours f ix iy with
  | none => none
  | some (_, minix, miniy) =>
    let xp := gridToWorld f minix f.minx_
    let yp := gridToWorld f miniy f.miny_
    some (minix, miniy, hypot (gx - xp) (gy - yp), path ++ [(xp, yp)])

/-- The state `(ix, iy, d, path)` of the `while` loop after `n` passes from the
state `s`; `none` when the loop makes fewer than `n` passes, because the test
of line 90 fails or a pass reads outside `pmap_`. -/
def planIterate (hypot : ℚ → ℚ → ℚ) (f : PotentialField) (gx gy : ℚ) :
    ℕ → ℤ × ℤ × ℚ × Path → Option (ℤ × ℤ × ℚ × Path)
  | 0, s => some s
  | n + 1, s =>
    match planIterate hypot f gx gy n s with
    | none => none
    | some (ix, iy, d, path) =>
      if f.reso_ ≤ d then planStep hypot f gx gy ix iy path else none

/-- The state in which `plan` enters the `while` loop (lines 83-89). -/
def planStart (hypot : ℚ → ℚ → ℚ) (f : PotentialField) (sx sy gx gy : ℚ) :
    ℤ × ℤ × ℚ × Path :=
  (worldToGrid f sx f.minx_, worldToGrid f sy f.miny_, hypot (sx - gx) (sy - gy), [])

/-- Modelled from the spec: the motion model of §3 as a set of offsets, "all
(dx,dy) with dx,dy ∈ {-1,0,1} excluding (0,0)", in any order; the header that
declares `motion_model_` is not part of the sources. -/
def IsEightConnected (motion : List (ℤ × ℤ)) : Prop :=
  ∀ dx dy : ℤ, (dx, dy) ∈ motion ↔
    (-1 ≤ dx ∧ dx ≤ 1 ∧ -1 ≤ dy ∧ dy ≤ 1 ∧ (dx, dy) ≠ (0, 0))

/-! ## The map dimensions and the bounds under rounding

Line 49 divides in `float` and converts the rounded quotient to the 32-bit
`int`, and lines 12-15 subtract and add in `float`.  Where the value of a
dimension or the order of two bounds is at stake these lines are stated with the
rounding `rnd` of every operation; `rnd = id` gives `xw`, `yw`,
`generatePotentialMap` and `construct`. -/

/-- The values of `float` that are not an infinity: the rationals between
`-FLT_MAX` and `FLT_MAX`. -/
def IsFiniteFloat (q : ℚ) : Prop := -FLT_MAX ≤ q ∧ q ≤ FLT_MAX

/-- Line 49 with the rounding of the difference and of the quotient. -/
def xwRounded (rnd : ℚ → ℚ) (f : PotentialField) : ℤ :=
  cppRound (rnd (rnd (f.maxx_ - f.minx_) / f.reso_))

/-- Line 50 with the rounding of the difference and of the quotient. -/
def ywRounded (rnd : ℚ → ℚ) (f : PotentialField) : ℤ :=
  cppRound (rnd (rnd (f.maxy_ - f.miny_) / f.reso_))

/-- The outcome of a call of `generatePotentialMap`. -/
inductive MapResult where
  /-- The call returns and leaves the object with this value. -/
  | stored (g : PotentialField)
  /-- A vector constructor of line 53 throws `std::length_error`. -/
  | lengthError
  /-- A rounded quotient of line 49 or 50 is not a value of `int`: its
  conversion is undefined. -/
  | undefinedConversion

/-- Lines 48-63 with the dimensions of lines 49 and 50 computed in rounded
arithmetic and converted to the 32-bit `int`. -/
def generatePotentialMapRounded (rnd : ℚ → ℚ) (hypot : ℚ → ℚ → ℚ) (f : PotentialField)
    (gx gy : ℚ) : MapResult :=
  let w := xwRounded rnd f
  let h := ywRounded rnd f
  if -2 ^ 31 ≤ w ∧ w < 2 ^ 31 ∧ -2 ^ 31 ≤ h ∧ h < 2 ^ 31 then
    if w < 0 ∨ h < 0 then .lengthError
    else
      .stored { f with
        pmap_ := (List.range w.toNat).map fun ix =>
          (List.range h.toNat).map fun iy => cellPotential hypot f gx gy ix iy }
  else .undefinedConversion

/-- The constructor (lines 4-16) with the rounding of lines 12-15: of the
quotient `area_width_ / 2.0f` and of the difference or sum. -/
def constructRounded (rnd : ℚ → ℚ) (motion : List (ℤ × ℤ)) (ox oy : List ℚ)
    (reso robot_radius kp eta area_width : ℚ) : Option PotentialField :=
  match minElement ox, minElement oy, maxElement ox, maxElement oy with
  | some mnx, some mny, some mxx, some mxy =>
    some
      { ox_ := ox, oy_ := oy, reso_ := reso, rr_ := robot_radius, kp_ := kp,
        eta_ := eta, area_width_ := area_width,
        minx_ := rnd (mnx - rnd (area_width / 2)),
        miny_ := rnd (mny - rnd (area_width / 2)),
        maxx_ := rnd (mxx + rnd (area_width / 2)),
        maxy_ := rnd (mxy + rnd (area_width / 2)),
        motion_model_ := motion, pmap_ := [] }
  | _, _, _, _ => none

/-- The field `smallField` with a robot radius of `2^-70`, a float. -/
def needleField : PotentialField := { smallField with rr_ := 1 / 2 ^ 70 }

/-- One obstacle at the origin, `reso = 0.1f`, the float nearest to `0.1`, and
`area_width = 1/4`: the bounds are `-1/8` and `1/8`. -/
def tenthField : PotentialField :=
  { smallField with
    reso_ := 13421773 / 134217728
    area_width_ := 1 / 4
    minx_ := -1 / 8
    miny_ := -1 / 8
    maxx_ := 1 / 8
    maxy_ := 1 / 8 }

/-- The field `smallField` with `reso = 2^-34`, a float. -/
def fineField : PotentialField := { smallField with reso_ := 1 / 2 ^ 34 }

/-- The field constructed in `float` arithmetic from one obstacle at
`(2^27 - 8, 0)` with `area_width = 1`: the floats next to `2^27 - 8` are 8 away,
and both `minx` and `maxx` are `2^27 - 8`. -/
def absorbedField : PotentialField :=
  { smallField with
    ox_ := [134217720]
    area_width_ := 1
    minx_ := 134217720
    miny_ := -1 / 2
    maxx_ := 134217720
    maxy_ := 1 / 2 }

/-! ## Arithmetic of the library functions -/

theorem FLT_MAX_pos : 0 < FLT_MAX := by norm_num [FLT_MAX]

theorem tenth_lt_FLT_MAX : (1 : ℚ) / 10 < FLT_MAX := by norm_num [FLT_MAX]

theorem hypotQ_zero : hypotQ 0 0 = 0 := by simp [hypotQ]

theorem hypotQ_nonneg (x y : ℚ) : 0 ≤ hypotQ x y := Rat.sqrt_nonneg _

theorem construct_smallField :
    construct motionModel8 [0] [0] 1 (1 / 2) 1 1 2 = some smallField := by
  simp [construct, minElement, maxElement, smallField]

theorem construct_thinField :
    construct motionModel8 [0] [0] 1 (1 / 20) 1 1 2 = some thinField := by
  simp [construct, minElement, maxElement, thinField, smallField]

theorem construct_farField :
    construct motionModel8 [-134217720] [0] (1 / 2) 5 5 100 16 = some farField := by
  simp [construct, minElement, maxElement, farField]
  norm_num

/-- The value of `roundF32` on a rational whose binade is known. -/
theorem roundF32_of_binade (q : ℚ) (e : ℤ) (h1 : (2 : ℚ) ^ e ≤ |q|)
    (h2 : |q| < (2 : ℚ) ^ (e + 1)) (he : -126 ≤ e) :
    roundF32 q = roundHalfEven (q / 2 ^ (e - 23)) * 2 ^ (e - 23) := by
  have hpos : 0 < |q| := lt_of_lt_of_le (by positivity) h1
  have hq : q ≠ 0 := abs_pos.mp hpos
  have hlog : Int.log 2 |q| = e := by
    apply le_antisymm
    · have := (Int.lt_zpow_iff_log_lt (b := 2) (by norm_num) hpos (x := e + 1)).mp
        (by exact_mod_cast h2)
      omega
    · exact (Int.zpow_le_iff_le_log (b := 2) (by norm_num) hpos).mp (by exact_mod_cast h1)
  rw [roundF32, if_neg hq, hlog, max_eq_left he]

theorem roundF32_zero : roundF32 0 = 0 := by
  rw [roundF32, if_pos rfl]

theorem roundF32_one : roundF32 1 = 1 := by
  rw [roundF32_of_binade 1 0 (by norm_num) (by norm_num) (by norm_num)]
  norm_num [roundHalfEven]

theorem roundF32_half : roundF32 (1 / 2) = 1 / 2 := by
  rw [roundF32_of_binade _ (-1) (by norm_num [abs_of_pos]) (by norm_num [abs_of_pos])
    (by norm_num)]
  norm_num [roundHalfEven]

/-- The float nearest to `0.1` is `13421773 / 2^27`, the value of `0.1f`. -/
theorem roundF32_tenth : roundF32 (1 / 10) = 13421773 / 134217728 := by
  rw [roundF32_of_binade _ (-4) (by norm_num [abs_of_pos]) (by norm_num [abs_of_pos])
    (by norm_num)]
  norm_num [roundHalfEven]

/-- The float sum `0.5f + -134217728.0f`: the exact sum lies between the
neighbouring floats `-134217728` and `-134217720`, nearer to the first. -/
theorem roundF32_half_sub_two_pow : roundF32 (1 / 2 + -134217728) = -134217728 := by
  rw [roundF32_of_binade _ 26 (by norm_num [abs_of_neg]) (by norm_num [abs_of_neg])
    (by norm_num)]
  norm_num [roundHalfEven]

theorem roundHalfEven_intCast (z : ℤ) : roundHalfEven (z : ℚ) = z := by
  simp [roundHalfEven]

theorem roundHalfEven_bounds (q : ℚ) :
    ⌊q⌋ ≤ roundHalfEven q ∧ roundHalfEven q ≤ ⌊q⌋ + 1 := by
  unfold roundHalfEven
  simp only
  split_ifs <;> omega

theorem roundHalfEven_mono (a b : ℚ) (h : a ≤ b) : roundHalfEven a ≤ roundHalfEven b := by
  have hfl : ⌊a⌋ ≤ ⌊b⌋ := Int.floor_mono h
  rcases hfl.lt_or_eq with hlt | heq
  · have h1 := (roundHalfEven_bounds a).2
    have h2 := (roundHalfEven_bounds b).1
    omega
  · unfold roundHalfEven
    simp only
    rw [heq]
    split_ifs <;> first | omega | (exfalso; linarith)

theorem roundHalfEven_neg (q : ℚ) : roundHalfEven (-q) = -roundHalfEven q := by
  by_cases hq : q = (⌊q⌋ : ℚ)
  · rw [hq, ← Int.cast_neg, roundHalfEven_intCast, roundHalfEven_intCast]
  · have h1 : (⌊q⌋ : ℚ) < q := lt_of_le_of_ne (Int.floor_le q) (Ne.symm hq)
    have h2 : q < ⌊q⌋ + 1 := Int.lt_floor_add_one q
    have hfl : ⌊-q⌋ = -⌊q⌋ - 1 := by
      rw [Int.floor_eq_iff]
      push_cast
      constructor <;> linarith
    unfold roundHalfEven
    simp only
    rw [hfl]
    push_cast
    split_ifs <;> first | omega | (exfalso; linarith)


theorem roundF32_neg (q : ℚ) : roundF32 (-q) = -roundF32 q := by
  unfold roundF32
  by_cases hq : q = 0
  · simp [hq]
  · rw [if_neg hq, if_neg (neg_ne_zero.mpr hq), abs_neg]
    simp only
    rw [neg_div, roundHalfEven_neg]
    push_cast
    ring

theorem roundF32_nonneg (q : ℚ) (h : 0 ≤ q) : 0 ≤ roundF32 q := by
  unfold roundF32
  split_ifs
  · exact le_refl _
  · simp only
    apply mul_nonneg _ (by positivity)
    have h0 := roundHalfEven_mono 0 (q / 2 ^ (max (Int.log 2 |q|) (-126) - 23))
      (div_nonneg h (by positivity))
    have e : roundHalfEven 0 = 0 := roundHalfEven_intCast 0
    rw [e] at h0
    exact_mod_cast h0

/-- A power of two that is a multiple of the spacing bounds the rounded value
as it bounds the exact one. -/
theorem roundHalfEven_scaled_le (q : ℚ) (E K : ℤ) (hK : E - 23 ≤ K)
    (hq : q ≤ 2 ^ K) :
    (roundHalfEven (q / 2 ^ (E - 23)) : ℚ) * 2 ^ (E - 23) ≤ 2 ^ K := by
  have hu : (0 : ℚ) < 2 ^ (E - 23) := by positivity
  have hT : (2 : ℚ) ^ K / 2 ^ (E - 23) = (((2 : ℤ) ^ (K - (E - 23)).toNat : ℤ) : ℚ) := by
    rw [← zpow_sub₀ (by norm_num : (2 : ℚ) ≠ 0)]
    push_cast
    rw [← zpow_natCast, Int.toNat_of_nonneg (by omega)]
  have h1 := roundHalfEven_mono _ _ (div_le_div_of_nonneg_right hq hu.le)
  rw [hT, roundHalfEven_intCast] at h1
  have h2 : (roundHalfEven (q / 2 ^ (E - 23)) : ℚ) ≤ 2 ^ K / 2 ^ (E - 23) := by
    rw [hT]; exact_mod_cast h1
  calc (roundHalfEven (q / 2 ^ (E - 23)) : ℚ) * 2 ^ (E - 23)
      ≤ 2 ^ K / 2 ^ (E - 23) * 2 ^ (E - 23) := mul_le_mul_of_nonneg_right h2 hu.le
    _ = 2 ^ K := div_mul_cancel₀ _ hu.ne'

theorem le_roundHalfEven_scaled (q : ℚ) (E K : ℤ) (hK : E - 23 ≤ K)
    (hq : 2 ^ K ≤ q) :
    (2 : ℚ) ^ K ≤ (roundHalfEven (q / 2 ^ (E - 23)) : ℚ) * 2 ^ (E - 23) := by
  have hu : (0 : ℚ) < 2 ^ (E - 23) := by positivity
  have hT : (2 : ℚ) ^ K / 2 ^ (E - 23) = (((2 : ℤ) ^ (K - (E - 23)).toNat : ℤ) : ℚ) := by
    rw [← zpow_sub₀ (by norm_num : (2 : ℚ) ≠ 0)]
    push_cast
    rw [← zpow_natCast, Int.toNat_of_nonneg (by omega)]
  have h1 := roundHalfEven_mono _ _ (div_le_div_of_nonneg_right hq hu.le)
  rw [hT, roundHalfEven_intCast] at h1
  have h2 : (2 : ℚ) ^ K / 2 ^ (E - 23) ≤ (roundHalfEven (q / 2 ^ (E - 23)) : ℚ) := by
    rw [hT]; exact_mod_cast h1
  calc (2 : ℚ) ^ K = 2 ^ K / 2 ^ (E - 23) * 2 ^ (E - 23) := (div_mul_cancel₀ _ hu.ne').symm
    _ ≤ (roundHalfEven (q / 2 ^ (E - 23)) : ℚ) * 2 ^ (E - 23) :=
      mul_le_mul_of_nonneg_right h2 hu.le

theorem roundF32_mono_of_pos (a b : ℚ) (ha : 0 < a) (h : a ≤ b) :
    roundF32 a ≤ roundF32 b := by
  have hb : 0 < b := lt_of_lt_of_le ha h
  have hlog : Int.log 2 a ≤ Int.log 2 b := Int.log_mono_right ha h
  unfold roundF32
  rw [if_neg ha.ne', if_neg hb.ne', abs_of_pos ha, abs_of_pos hb]
  simp only
  rcases (max_le_max_right (-126) hlog).lt_or_eq with hlt | heq
  · have hEb : max (Int.log 2 b) (-126) = Int.log 2 b := by
      rcases max_choice (Int.log 2 b) (-126) with h1 | h1
      · exact h1
      · rw [h1] at hlt
        exact absurd hlt (not_lt.mpr (le_max_right _ _))
    have hTb : (2 : ℚ) ^ max (Int.log 2 b) (-126) ≤ b := by
      rw [hEb]; exact Int.zpow_log_le_self (by norm_num) hb
    have hTa : a ≤ (2 : ℚ) ^ max (Int.log 2 b) (-126) := by
      have h1 : a < (2 : ℚ) ^ (Int.log 2 a + 1) := Int.lt_zpow_succ_log_self (by norm_num) a
      have h2 : (2 : ℚ) ^ (Int.log 2 a + 1) ≤ 2 ^ max (Int.log 2 b) (-126) :=
        zpow_le_zpow_right₀ (by norm_num) (by
          have := le_max_left (Int.log 2 a) (-126)
          omega)
      exact (h1.trans_le h2).le
    exact (roundHalfEven_scaled_le a _ _ (by omega) hTa).trans
      (le_roundHalfEven_scaled b _ _ (by omega) hTb)
  · rw [heq]
    apply mul_le_mul_of_nonneg_right _ (by positivity)
    exact_mod_cast roundHalfEven_mono _ _
      (div_le_div_of_nonneg_right h (by positivity))

/-- The rounding to `float` is monotone. -/
theorem roundF32_mono (a b : ℚ) (h : a ≤ b) : roundF32 a ≤ roundF32 b := by
  rcases lt_trichotomy 0 a with ha | ha | ha
  · exact roundF32_mono_of_pos a b ha h
  · rw [← ha, roundF32_zero]
    exact roundF32_nonneg b (ha ▸ h)
  · rcases lt_or_le b 0 with hb | hb
    · have := roundF32_mono_of_pos (-b) (-a) (neg_pos.mpr hb) (neg_le_neg h)
      rw [roundF32_neg, roundF32_neg] at this
      exact neg_le_neg_iff.mp this
    · have h1 := roundF32_nonneg (-a) (neg_nonneg.mpr ha.le)
      rw [roundF32_neg] at h1
      exact (neg_nonneg.mp h1).trans (roundF32_nonneg b hb)

theorem roundF32_two : roundF32 2 = 2 := by
  rw [roundF32_of_binade 2 1 (by norm_num) (by norm_num) (by norm_num)]
  norm_num [roundHalfEven]

theorem roundF32_quarter : roundF32 (1 / 4) = 1 / 4 := by
  rw [roundF32_of_binade _ (-2) (by norm_num [abs_of_pos]) (by norm_num [abs_of_pos])
    (by norm_num)]
  norm_num [roundHalfEven]

/-- The float quotient `0.25f / 0.1f`: the exact quotient is below `2.5` by less
than half the distance `2^-22` of the floats there, and rounds to `2.5f`. -/
theorem roundF32_quarter_div_tenth :
    roundF32 (1 / 4 / (13421773 / 134217728)) = 5 / 2 := by
  rw [roundF32_of_binade _ 1 (by norm_num [abs_of_pos]) (by norm_num [abs_of_pos])
    (by norm_num)]
  norm_num [roundHalfEven]

theorem roundF32_two_pow_35 : roundF32 (2 / (1 / 2 ^ 34)) = 34359738368 := by
  rw [roundF32_of_binade _ 35 (by norm_num [abs_of_pos]) (by norm_num [abs_of_pos])
    (by norm_num)]
  norm_num [roundHalfEven]

/-- The float difference `134217720.0f - 0.5f`: the floats next to `2^27 - 8` are
8 away, and the exact difference rounds to `2^27 - 8`. -/
theorem roundF32_far_sub_half : roundF32 (134217720 - 1 / 2) = 134217720 := by
  rw [roundF32_of_binade _ 26 (by norm_num [abs_of_pos]) (by norm_num [abs_of_pos])
    (by norm_num)]
  norm_num [roundHalfEven]

theorem roundF32_far_add_half : roundF32 (134217720 + 1 / 2) = 134217720 := by
  rw [roundF32_of_binade _ 26 (by norm_num [abs_of_pos]) (by norm_num [abs_of_pos])
    (by norm_num)]
  norm_num [roundHalfEven]

theorem roundF32_neg_half : roundF32 (0 - 1 / 2) = -1 / 2 := by
  have e : (0 : ℚ) - 1 / 2 = -(1 / 2) := by norm_num
  rw [e, roundF32_neg, roundF32_half]
  norm_num

theorem roundF32_zero_add_half : roundF32 (0 + 1 / 2) = 1 / 2 := by
  rw [zero_add, roundF32_half]

/-! ## The scan for the closest obstacle -/

theorem foldl_min_init (l : List ℚ) (i a : ℚ) :
    l.foldl min (min i a) = min i (l.foldl min a) := by
  induction l generalizing a with
  | nil => rfl
  | cons b l ih => simp only [List.foldl_cons, min_assoc, ih]

theorem scan_eq_foldl_min {α : Type} (d : α → ℚ) (l : List α) (init : ℚ) :
    l.foldl (fun min_dist o => if d o ≤ min_dist then d o else min_dist) init
      = (l.map d).foldl min init := by
  induction l generalizing init with
  | nil => rfl
  | cons o l ih =>
    simp only [List.foldl_cons, List.map_cons, ih]
    congr 1
    rcases le_total (d o) init with h | h
    · rw [if_pos h, min_eq_right h]
    · rcases eq_or_lt_of_le h with h' | h'
      · rw [if_pos h'.ge, min_eq_left h, h']
      · rw [if_neg (not_le.mpr h'), min_eq_left h]

/-- The scan returns `FLT_MAX` when there is no obstacle and otherwise the
distance to the nearest obstacle, capped by `FLT_MAX`. -/
theorem closestObstacleDistance_eq (hypot : ℚ → ℚ → ℚ) (f : PotentialField)
    (x y : ℚ) :
    closestObstacleDistance hypot f x y =
      match nearestObstacleDistance hypot f x y with
      | none => FLT_MAX
      | some d => min FLT_MAX d := by
  unfold closestObstacleDistance nearestObstacleDistance
  rw [scan_eq_foldl_min (fun o : ℚ × ℚ => hypot (x - o.1) (y - o.2))]
  cases (List.zip f.ox_ f.oy_).map (fun o : ℚ × ℚ => hypot (x - o.1) (y - o.2)) with
  | nil => rfl
  | cons a l =>
    simp only [List.foldl_cons, List.min?_cons']
    exact foldl_min_init l FLT_MAX a

theorem foldl_min_le (l : List ℚ) (a : ℚ) :
    l.foldl min a ≤ a ∧ ∀ b ∈ l, l.foldl min a ≤ b := by
  induction l generalizing a with
  | nil => simp
  | cons c l ih =>
    simp only [List.foldl_cons, List.mem_cons, forall_eq_or_imp]
    refine ⟨(ih _).1.trans (min_le_left _ _), (ih _).1.trans (min_le_right _ _), ?_⟩
    exact fun b hb => (ih _).2 b hb

theorem foldl_min_mem (l : List ℚ) (a : ℚ) :
    l.foldl min a = a ∨ l.foldl min a ∈ l := by
  induction l generalizing a with
  | nil => simp
  | cons c l ih =>
    simp only [List.foldl_cons, List.mem_cons]
    rcases ih (min a c) with h | h
    · rcases min_choice a c with h2 | h2
      · left; rw [h, h2]
      · right; left; rw [h, h2]
    · right; right; exact h

theorem nearest_le_of_mem (hypot : ℚ → ℚ → ℚ) (f : PotentialField)
    (x y d : ℚ) (h : nearestObstacleDistance hypot f x y = some d)
    (o : ℚ × ℚ) (ho : o ∈ List.zip f.ox_ f.oy_) :
    d ≤ hypot (x - o.1) (y - o.2) := by
  unfold nearestObstacleDistance at h
  have hm : hypot (x - o.1) (y - o.2) ∈
      (List.zip f.ox_ f.oy_).map (fun o : ℚ × ℚ => hypot (x - o.1) (y - o.2)) :=
    List.mem_map.mpr ⟨o, ho, rfl⟩
  revert h hm
  cases (List.zip f.ox_ f.oy_).map (fun o : ℚ × ℚ => hypot (x - o.1) (y - o.2)) with
  | nil => intro h; simp at h
  | cons a l =>
    intro h hm
    rw [List.min?_cons'] at h
    obtain rfl := Option.some.inj h
    rcases List.mem_cons.mp hm with hm | hm
    · rw [hm]; exact (foldl_min_le l a).1
    · exact (foldl_min_le l a).2 _ hm

theorem nearest_mem (hypot : ℚ → ℚ → ℚ) (f : PotentialField)
    (x y d : ℚ) (h : nearestObstacleDistance hypot f x y = some d) :
    ∃ o ∈ List.zip f.ox_ f.oy_, hypot (x - o.1) (y - o.2) = d := by
  unfold nearestObstacleDistance at h
  have hm : d ∈
      (List.zip f.ox_ f.oy_).map (fun o : ℚ × ℚ => hypot (x - o.1) (y - o.2)) := by
    revert h
    cases (List.zip f.ox_ f.oy_).map (fun o : ℚ × ℚ => hypot (x - o.1) (y - o.2)) with
    | nil => intro h; simp at h
    | cons a l =>
      intro h
      rw [List.min?_cons'] at h
      obtain rfl := Option.some.inj h
      rcases foldl_min_mem l a with h2 | h2
      · rw [h2]; exact List.mem_cons_self _ _
      · exact List.mem_cons_of_mem _ h2
  obtain ⟨o, ho, hd⟩ := List.mem_map.mp hm
  exact ⟨o, ho, hd⟩

theorem nearest_none_iff (hypot : ℚ → ℚ → ℚ) (f : PotentialField) (x y : ℚ) :
    nearestObstacleDistance hypot f x y = none ↔ List.zip f.ox_ f.oy_ = [] := by
  unfold nearestObstacleDistance
  cases List.zip f.ox_ f.oy_ with
  | nil => simp
  | cons a l => simp [List.min?_cons']

theorem clampDq_eq_max (dq : ℚ) : clampDq dq = max dq (1 / 10) := by
  unfold clampDq
  split_ifs with h
  · exact (max_eq_right h).symm
  · exact (max_eq_left (le_of_lt (not_le.mp h))).symm


/-- The value of `calculateRepulsivePotential` in terms of the distance to the
nearest obstacle, for a radius in the range of `float`: the test of line 37 is
on the distance itself, the floor of `0.1` is applied after it. -/
theorem calculateRepulsivePotential_eq (hypot : ℚ → ℚ → ℚ) (f : PotentialField)
    (x y : ℚ) (hmax : f.rr_ ≤ FLT_MAX) :
    calculateRepulsivePotential hypot f x y =
      match nearestObstacleDistance hypot f x y with
      | none => 0
      | some d => if d ≤ f.rr_ then repulsion f (max d (1 / 10)) else 0 := by
  have hcap : FLT_MAX ≤ f.rr_ →
      1 / 2 * f.eta_ * (1 / clampDq FLT_MAX - 1 / f.rr_) ^ 2 = 0 := by
    intro h
    have hrr : f.rr_ = FLT_MAX := le_antisymm hmax h
    have hc : clampDq FLT_MAX = FLT_MAX := by
      rw [clampDq, if_neg (not_le.mpr tenth_lt_FLT_MAX)]
    rw [hc, hrr]; ring
  unfold calculateRepulsivePotential
  simp only
  rw [closestObstacleDistance_eq]
  cases hn : nearestObstacleDistance hypot f x y with
  | none =>
    simp only
    split_ifs with h
    · exact hcap h
    · rfl
  | some d =>
    simp only
    rcases le_or_lt d FLT_MAX with hd | hd
    · rw [min_eq_right hd, clampDq_eq_max]
      rfl
    · rw [min_eq_left hd.le, if_neg (not_le.mpr (lt_of_le_of_lt hmax hd))]
      split_ifs with h
      · exact hcap h
      · rfl

/-- Claim C1, as amended.  For every obstacle list, every point `(x, y)`, every
`eta` and every `robot_radius > 0` (a `float`, so at most `FLT_MAX`): with `d`
the minimum distance from `(x, y)` to an obstacle,
`calculateRepulsivePotential(x, y)` is
`0.5 * eta * (1/max(d, 0.1) - 1/robot_radius)^2` if the unclamped `d` is at
most `robot_radius` and `0` otherwise (`0` without obstacles); and for
`robot_radius ≥ 0.1` this is the definition of the specification, which tests
the clamped distance. -/
theorem repulsive_refines_spec (hypot : ℚ → ℚ → ℚ) (f : PotentialField)
    (x y : ℚ) (hrr : 0 < f.rr_ ∧ f.rr_ ≤ FLT_MAX) :
    (calculateRepulsivePotential hypot f x y =
      match nearestObstacleDistance hypot f x y with
      | none => 0
      | some d => if d ≤ f.rr_ then repulsion f (max d (1 / 10)) else 0) ∧
    (1 / 10 ≤ f.rr_ →
      calculateRepulsivePotential hypot f x y = specRepulsivePotential hypot f x y) := by
  refine ⟨calculateRepulsivePotential_eq hypot f x y hrr.2, fun hfloor => ?_⟩
  rw [calculateRepulsivePotential_eq hypot f x y hrr.2]
  unfold specRepulsivePotential
  cases nearestObstacleDistance hypot f x y with
  | none => rfl
  | some d =>
    simp only
    by_cases h : d ≤ f.rr_
    · rw [if_pos h, if_pos (max_le h hfloor)]
    · rw [if_neg h, if_neg (fun h2 => h ((le_max_left _ _).trans h2))]

theorem repulsive_refines_spec_witness :
    (0 < smallField.rr_ ∧ smallField.rr_ ≤ FLT_MAX) ∧
    (calculateRepulsivePotential hypotQ smallField 0 0 =
      match nearestObstacleDistance hypotQ smallField 0 0 with
      | none => 0
      | some d => if d ≤ smallField.rr_ then repulsion smallField (max d (1 / 10)) else 0) ∧
    (1 / 10 ≤ smallField.rr_ →
      calculateRepulsivePotential hypotQ smallField 0 0
        = specRepulsivePotential hypotQ smallField 0 0) :=
  have h : 0 < smallField.rr_ ∧ smallField.rr_ ≤ FLT_MAX := by
    norm_num [smallField, FLT_MAX]
  ⟨h, repulsive_refines_spec hypotQ smallField 0 0 h⟩

/-- Claim C1 as stated fails below the floor.  The field `thinField` has
`robot_radius = 1/20 > 0`, `eta = 1 ≥ 0` and its obstacle at the origin.  At the
origin the distance is `0 ≤ 1/20`, so line 37 takes the first branch and the
code returns `0.5 * (10 - 20)^2 = 50`; the clamped distance `0.1` exceeds the
radius, so the definition of the specification gives `0`. -/
theorem repulsive_ne_spec_below_floor :
    construct motionModel8 [0] [0] 1 (1 / 20) 1 1 2 = some thinField ∧
    0 < thinField.rr_ ∧ 0 ≤ thinField.eta_ ∧
    calculateRepulsivePotential hypotQ thinField 0 0 = 50 ∧
    specRepulsivePotential hypotQ thinField 0 0 = 0 := by
  refine ⟨construct_thinField, by norm_num [thinField], by norm_num [thinField, smallField], ?_, ?_⟩
  · norm_num [calculateRepulsivePotential, closestObstacleDistance, thinField, smallField,
      hypotQ_zero, FLT_MAX, clampDq]
  · norm_num [specRepulsivePotential, nearestObstacleDistance, thinField, smallField,
      hypotQ_zero, repulsion, List.min?_cons']

/-- Claim C2.  For every obstacle list and every point `(x, y)`: if the distance
from `(x, y)` to the nearest obstacle, hence to every obstacle, is strictly
greater than `robot_radius` (a `float`, so at most `FLT_MAX`), then
`calculateRepulsivePotential(x, y)` returns exactly `0`. -/
theorem repulsive_zero_beyond_radius (hypot : ℚ → ℚ → ℚ) (f : PotentialField)
    (x y : ℚ) (hmax : f.rr_ ≤ FLT_MAX)
    (hfar : ∀ o ∈ List.zip f.ox_ f.oy_, f.rr_ < hypot (x - o.1) (y - o.2)) :
    calculateRepulsivePotential hypot f x y = 0 := by
  rw [calculateRepulsivePotential_eq hypot f x y hmax]
  cases hn : nearestObstacleDistance hypot f x y with
  | none => rfl
  | some d =>
    obtain ⟨o, ho, hd⟩ := nearest_mem hypot f x y d hn
    have h := hfar o ho
    rw [hd] at h
    simp only
    rw [if_neg (not_le.mpr h)]

theorem repulsive_zero_beyond_radius_witness :
    smallField.rr_ ≤ FLT_MAX ∧
    (∀ o ∈ List.zip smallField.ox_ smallField.oy_,
      smallField.rr_ < hypotQ (3 - o.1) (4 - o.2)) ∧
    calculateRepulsivePotential hypotQ smallField 3 4 = 0 :=
  have h1 : smallField.rr_ ≤ FLT_MAX := by norm_num [smallField, FLT_MAX]
  have h2 : ∀ o ∈ List.zip smallField.ox_ smallField.oy_,
      smallField.rr_ < hypotQ (3 - o.1) (4 - o.2) := by
    norm_num [smallField, hypotQ, Rat.sqrt]
  ⟨h1, h2, repulsive_zero_beyond_radius hypotQ smallField 3 4 h1 h2⟩

/-- At the location of an obstacle the scan finds the distance `0`. -/
theorem closestObstacleDistance_at_obstacle (hypot : ℚ → ℚ → ℚ)
    (f : PotentialField) (h0 : hypot 0 0 = 0) (hnn : ∀ a b, 0 ≤ hypot a b)
    (i : ℕ) (hi : i < f.ox_.length) (hj : i < f.oy_.length) :
    closestObstacleDistance hypot f f.ox_[i] f.oy_[i] = 0 := by
  have hmem : (f.ox_[i], f.oy_[i]) ∈ List.zip f.ox_ f.oy_ := by
    rw [List.mem_iff_getElem]
    exact ⟨i, by simp [List.length_zip, hi, hj], by simp⟩
  rw [closestObstacleDistance_eq]
  cases hn : nearestObstacleDistance hypot f f.ox_[i] f.oy_[i] with
  | none =>
    rw [nearest_none_iff] at hn
    rw [hn] at hmem
    simp at hmem
  | some d =>
    have hle := nearest_le_of_mem hypot f _ _ d hn _ hmem
    simp only [sub_self, h0] at hle
    obtain ⟨o, _, hd⟩ := nearest_mem hypot f _ _ d hn
    have hge : 0 ≤ d := hd ▸ hnn _ _
    have hd0 : d = 0 := le_antisymm hle hge
    simp only [hd0]
    exact min_eq_right FLT_MAX_pos.le

/-- The value of the repulsive potential at the location of an obstacle: the
clamp replaces the distance `0` by `0.1`. -/
theorem calculateRepulsivePotential_at_obstacle (hypot : ℚ → ℚ → ℚ)
    (f : PotentialField) (h0 : hypot 0 0 = 0) (hnn : ∀ a b, 0 ≤ hypot a b)
    (hrr : 0 < f.rr_) (i : ℕ) (hi : i < f.ox_.length) (hj : i < f.oy_.length) :
    calculateRepulsivePotential hypot f f.ox_[i] f.oy_[i]
      = 1 / 2 * f.eta_ * (1 / (1 / 10) - 1 / f.rr_) ^ 2 ∧
    clampDq (closestObstacleDistance hypot f f.ox_[i] f.oy_[i]) = 1 / 10 := by
  have hd := closestObstacleDistance_at_obstacle hypot f h0 hnn i hi hj
  have hc : clampDq (closestObstacleDistance hypot f f.ox_[i] f.oy_[i]) = 1 / 10 := by
    rw [hd, clampDq, if_pos (by norm_num)]
  refine ⟨?_, hc⟩
  unfold calculateRepulsivePotential
  simp only
  rw [hc, hd, if_pos hrr.le]

/-- Claim C3, as amended.  For every obstacle list, every `robot_radius > 0` and
every index `i` of an obstacle, `calculateRepulsivePotential(ox[i], oy[i])` is,
in exact arithmetic, the value obtained by treating `dq` as `0.1`, namely
`0.5 * eta * (1/0.1 - 1/robot_radius)^2`: the divisor `dq` is the clamp value
`0.1` and the divisor `robot_radius` is positive, so nothing is divided by zero.
The value is that of a finite float whenever `robot_radius ≥ 1/20` and
`0 ≤ eta ≤ FLT_MAX / 100`: it then lies between `0` and `50 * eta`, which is at
most half of `FLT_MAX`.  Of `std::hypot` the statement uses `hypot(0, 0) = 0` and
`hypot(a, b) ≥ 0`. -/
theorem repulsive_at_obstacle (hypot : ℚ → ℚ → ℚ) (f : PotentialField)
    (h0 : hypot 0 0 = 0) (hnn : ∀ a b, 0 ≤ hypot a b) (hrr : 0 < f.rr_)
    (i : ℕ) (hi : i < f.ox_.length) (hj : i < f.oy_.length) :
    calculateRepulsivePotential hypot f f.ox_[i] f.oy_[i]
      = 1 / 2 * f.eta_ * (1 / (1 / 10) - 1 / f.rr_) ^ 2 ∧
    clampDq (closestObstacleDistance hypot f f.ox_[i] f.oy_[i]) = 1 / 10 ∧
    (1 / 20 ≤ f.rr_ → 0 ≤ f.eta_ → f.eta_ ≤ FLT_MAX / 100 →
      0 ≤ calculateRepulsivePotential hypot f f.ox_[i] f.oy_[i] ∧
      calculateRepulsivePotential hypot f f.ox_[i] f.oy_[i] ≤ 50 * f.eta_ ∧
      50 * f.eta_ ≤ FLT_MAX / 2 ∧
      IsFiniteFloat (calculateRepulsivePotential hypot f f.ox_[i] f.oy_[i])) := by
  obtain ⟨hv, hc⟩ := calculateRepulsivePotential_at_obstacle hypot f h0 hnn hrr i hi hj
  refine ⟨hv, hc, fun hr heta hmax => ?_⟩
  rw [hv]
  have hinv : 0 < 1 / f.rr_ := by positivity
  have hinv2 : 1 / f.rr_ ≤ 20 := by
    rw [div_le_iff₀ hrr]
    linarith
  have hsq : (1 / (1 / 10) - 1 / f.rr_) ^ 2 ≤ 100 := by
    have e : (1 : ℚ) / (1 / 10) = 10 := by norm_num
    rw [e]
    nlinarith
  have hnn2 : 0 ≤ (1 / (1 / 10) - 1 / f.rr_) ^ 2 := sq_nonneg _
  have hpos := FLT_MAX_pos
  have h1 : 0 ≤ 1 / 2 * f.eta_ * (1 / (1 / 10) - 1 / f.rr_) ^ 2 := by positivity
  have h2 : 1 / 2 * f.eta_ * (1 / (1 / 10) - 1 / f.rr_) ^ 2 ≤ 50 * f.eta_ := by
    nlinarith
  have h3 : 50 * f.eta_ ≤ FLT_MAX / 2 := by linarith
  refine ⟨h1, h2, h3, ?_, ?_⟩ <;> linarith

theorem repulsive_at_obstacle_witness :
    hypotQ 0 0 = 0 ∧ (∀ a b, 0 ≤ hypotQ a b) ∧ 0 < smallField.rr_ ∧
    calculateRepulsivePotential hypotQ smallField 0 0
      = 1 / 2 * smallField.eta_ * (1 / (1 / 10) - 1 / smallField.rr_) ^ 2 ∧
    IsFiniteFloat (calculateRepulsivePotential hypotQ smallField 0 0) :=
  have h := repulsive_at_obstacle hypotQ smallField hypotQ_zero hypotQ_nonneg
    (by norm_num [smallField]) 0 (by decide) (by decide)
  ⟨hypotQ_zero, hypotQ_nonneg, by norm_num [smallField], h.1,
    (h.2.2 (by norm_num [smallField]) (by norm_num [smallField])
      (by norm_num [smallField, FLT_MAX])).2.2.2⟩

/-- Claim C3 as stated fails for a small robot radius: the value is not finite.
The field `needleField` is the one the constructor builds from one obstacle at
the origin with `robot_radius = 2^-70 > 0`, a float, and `eta = 1`.  At the
obstacle line 40 computes `0.5 * (1/0.1 - 2^70)^2`, which is about `2^139` and
exceeds `FLT_MAX`, about `2^128`: the `float` that the function returns is an
infinity. -/
theorem repulsive_at_obstacle_overflows :
    construct motionModel8 [0] [0] 1 (1 / 2 ^ 70) 1 1 2 = some needleField ∧
    0 < needleField.rr_ ∧ roundF32 needleField.rr_ = needleField.rr_ ∧
    calculateRepulsivePotential hypotQ needleField 0 0
      = 1 / 2 * (1 / (1 / 10) - 2 ^ 70) ^ 2 ∧
    FLT_MAX < calculateRepulsivePotential hypotQ needleField 0 0 ∧
    ¬ IsFiniteFloat (calculateRepulsivePotential hypotQ needleField 0 0) := by
  have hrr : 0 < needleField.rr_ := by norm_num [needleField, smallField]
  have hv : calculateRepulsivePotential hypotQ needleField 0 0
      = 1 / 2 * (1 / (1 / 10) - 2 ^ 70) ^ 2 := by
    have h := (calculateRepulsivePotential_at_obstacle hypotQ needleField hypotQ_zero
      hypotQ_nonneg hrr 0 (by decide) (by decide)).1
    have e : calculateRepulsivePotential hypotQ needleField needleField.ox_[0]
        needleField.oy_[0] = calculateRepulsivePotential hypotQ needleField 0 0 := rfl
    rw [e] at h
    rw [h]
    norm_num [needleField, smallField]
  have hbig : FLT_MAX < calculateRepulsivePotential hypotQ needleField 0 0 := by
    rw [hv]
    norm_num [FLT_MAX]
  refine ⟨?_, hrr, ?_, hv, hbig, fun h => absurd h.2 (not_le.mpr hbig)⟩
  · simp [construct, minElement, maxElement, needleField, smallField]
  · have e : needleField.rr_ = 1 / 2 ^ 70 := rfl
    rw [e, roundF32_of_binade _ (-70) (by norm_num [abs_of_pos]) (by norm_num [abs_of_pos])
      (by norm_num)]
    norm_num [roundHalfEven]

/-- Claim C4.  For every goal `(gx, gy)` and every gain `kp`,
`calculateAttractivePotential(gx, gy, gx, gy)` equals `0`; of `std::hypot` it
uses `hypot(0, 0) = 0`. -/
theorem attractive_zero_at_goal (hypot : ℚ → ℚ → ℚ) (f : PotentialField)
    (gx gy : ℚ) (h0 : hypot 0 0 = 0) :
    calculateAttractivePotential hypot f gx gy gx gy = 0 := by
  unfold calculateAttractivePotential
  rw [sub_self, sub_self, h0, mul_zero]

theorem attractive_zero_at_goal_witness :
    hypotQ 0 0 = 0 ∧ calculateAttractivePotential hypotQ smallField 30 30 30 30 = 0 :=
  ⟨hypotQ_zero, attractive_zero_at_goal hypotQ smallField 30 30 hypotQ_zero⟩

/-- Claim C5.  For every `kp ≥ 0`, every goal `g` and every two points `p1`,
`p2`: if `dist(p1, g) ≤ dist(p2, g)`, the distance being the value of
`std::hypot` on the coordinate differences, then
`calculateAttractivePotential(p1, g) ≤ calculateAttractivePotential(p2, g)`,
the potential of `p` being `0.5 * kp * dist(p, g)`. -/
theorem attractive_monotone (hypot : ℚ → ℚ → ℚ) (f : PotentialField)
    (x1 y1 x2 y2 gx gy : ℚ) (hkp : 0 ≤ f.kp_)
    (hd : hypot (x1 - gx) (y1 - gy) ≤ hypot (x2 - gx) (y2 - gy)) :
    calculateAttractivePotential hypot f x1 y1 gx gy
      ≤ calculateAttractivePotential hypot f x2 y2 gx gy ∧
    ∀ x y, calculateAttractivePotential hypot f x y gx gy
      = 1 / 2 * f.kp_ * hypot (x - gx) (y - gy) := by
  refine ⟨?_, fun _ _ => rfl⟩
  unfold calculateAttractivePotential
  exact mul_le_mul_of_nonneg_left hd (by positivity)

theorem attractive_monotone_witness :
    0 ≤ smallField.kp_ ∧ hypotQ (3 - 0) (0 - 0) ≤ hypotQ (3 - 0) (4 - 0) ∧
    calculateAttractivePotential hypotQ smallField 3 0 0 0
      ≤ calculateAttractivePotential hypotQ smallField 3 4 0 0 :=
  have h1 : 0 ≤ smallField.kp_ := by norm_num [smallField]
  have h2 : hypotQ (3 - 0) (0 - 0) ≤ hypotQ (3 - 0) (4 - 0) := by
    norm_num [hypotQ, Rat.sqrt]
  ⟨h1, h2, (attractive_monotone hypotQ smallField 3 0 3 4 0 0 h1 h2).1⟩

/-! ## The potential map -/

theorem cppRound_nonneg (q : ℚ) (h : 0 ≤ q) : 0 ≤ cppRound q := by
  rw [cppRound, if_pos h]
  exact Int.floor_nonneg.mpr (by linarith)

theorem cppRound_intCast (z : ℤ) : cppRound (z : ℚ) = z := by
  unfold cppRound
  split_ifs with h
  · rw [Int.floor_eq_iff]
    constructor <;> linarith
  · rw [Int.ceil_eq_iff]
    constructor <;> linarith

theorem generatePotentialMap_eq (hypot : ℚ → ℚ → ℚ) (f : PotentialField)
    (gx gy : ℚ) (hx : 0 ≤ xw f) (hy : 0 ≤ yw f) :
    generatePotentialMap hypot f gx gy =
      some { f with
        pmap_ := (List.range (xw f).toNat).map fun ix =>
          (List.range (yw f).toNat).map fun iy => cellPotential hypot f gx gy ix iy } := by
  rw [generatePotentialMap, if_neg]
  rintro (h | h) <;> omega

/-- The dimensions of lines 49 and 50 in exact arithmetic. -/
theorem xwRounded_id (f : PotentialField) :
    xwRounded id f = xw f ∧ ywRounded id f = yw f :=
  ⟨rfl, rfl⟩

/-- In exact arithmetic and for dimensions of the type `int` the call has the
outcome that `generatePotentialMap` describes. -/
theorem generatePotentialMapRounded_id (hypot : ℚ → ℚ → ℚ) (f : PotentialField)
    (gx gy : ℚ) (hx : IsInt (xw f)) (hy : IsInt (yw f)) :
    generatePotentialMapRounded id hypot f gx gy =
      match generatePotentialMap hypot f gx gy with
      | some g => .stored g
      | none => .lengthError := by
  unfold IsInt at hx hy
  unfold generatePotentialMapRounded generatePotentialMap
  simp only [(xwRounded_id f).1, (xwRounded_id f).2]
  rw [if_pos ⟨hx.1, hx.2, hy.1, hy.2⟩]
  split_ifs <;> rfl

theorem generatePotentialMapRounded_eq (rnd : ℚ → ℚ) (hypot : ℚ → ℚ → ℚ)
    (f : PotentialField) (gx gy : ℚ)
    (hx : 0 ≤ xwRounded rnd f ∧ IsInt (xwRounded rnd f))
    (hy : 0 ≤ ywRounded rnd f ∧ IsInt (ywRounded rnd f)) :
    generatePotentialMapRounded rnd hypot f gx gy =
      .stored { f with
        pmap_ := (List.range (xwRounded rnd f).toNat).map fun ix =>
          (List.range (ywRounded rnd f).toNat).map fun iy =>
            cellPotential hypot f gx gy ix iy } := by
  obtain ⟨hx0, hx1, hx2⟩ := hx
  obtain ⟨hy0, hy1, hy2⟩ := hy
  unfold generatePotentialMapRounded
  simp only
  rw [if_pos ⟨hx1, hx2, hy1, hy2⟩, if_neg (by omega)]

/-- A monotone rounding that leaves `0` as it is gives a non-negative dimension
to bounds in order. -/
theorem dimension_nonneg (rnd : ℚ → ℚ) (hmono : ∀ a b, a ≤ b → rnd a ≤ rnd b)
    (h0 : rnd 0 = 0) (lo hi reso : ℚ) (hreso : 0 < reso) (h : lo ≤ hi) :
    0 ≤ cppRound (rnd (rnd (hi - lo) / reso)) := by
  apply cppRound_nonneg
  have h1 : 0 ≤ rnd (hi - lo) := h0 ▸ hmono 0 _ (sub_nonneg.mpr h)
  exact h0 ▸ hmono 0 _ (div_nonneg h1 hreso.le)

/-- Claim C7, as amended.  For every configuration with `resolution > 0`,
`maxx ≥ minx` and `maxy ≥ miny` whose two counts
`round((maxx - minx) / resolution)` and `round((maxy - miny) / resolution)`,
computed as lines 49 and 50 compute them, from the rounded `float` difference
and the rounded `float` quotient, are values of the 32-bit `int`:
`generatePotentialMap` returns and the map it stores has exactly the first
count of entries along the x axis, every one of which has exactly the second
count of entries along the y axis.  The rounding `rnd` of the `float`
operations is any monotone function that leaves `0` as it is. -/
theorem generatePotentialMap_dimensions (rnd : ℚ → ℚ) (hypot : ℚ → ℚ → ℚ)
    (f : PotentialField) (gx gy : ℚ)
    (hrnd : (∀ a b, a ≤ b → rnd a ≤ rnd b) ∧ rnd 0 = 0)
    (hreso : 0 < f.reso_) (hx : f.minx_ ≤ f.maxx_) (hy : f.miny_ ≤ f.maxy_)
    (hint : IsInt (cppRound (rnd (rnd (f.maxx_ - f.minx_) / f.reso_))) ∧
      IsInt (cppRound (rnd (rnd (f.maxy_ - f.miny_) / f.reso_)))) :
    ∃ g, generatePotentialMapRounded rnd hypot f gx gy = .stored g ∧
      (g.pmap_.length : ℤ) = cppRound (rnd (rnd (f.maxx_ - f.minx_) / f.reso_)) ∧
      ∀ row ∈ g.pmap_,
        (row.length : ℤ) = cppRound (rnd (rnd (f.maxy_ - f.miny_) / f.reso_)) := by
  have hxw : 0 ≤ xwRounded rnd f :=
    dimension_nonneg rnd hrnd.1 hrnd.2 _ _ _ hreso hx
  have hyw : 0 ≤ ywRounded rnd f :=
    dimension_nonneg rnd hrnd.1 hrnd.2 _ _ _ hreso hy
  have hix : IsInt (xwRounded rnd f) := hint.1
  have hiy : IsInt (ywRounded rnd f) := hint.2
  refine ⟨_, generatePotentialMapRounded_eq rnd hypot f gx gy ⟨hxw, hix⟩ ⟨hyw, hiy⟩, ?_, ?_⟩
  · simp only [List.length_map, List.length_range]
    exact Int.toNat_of_nonneg hxw
  · intro row hrow
    simp only [List.mem_map, List.mem_range] at hrow
    obtain ⟨ix, _, rfl⟩ := hrow
    simp only [List.length_map, List.length_range]
    exact Int.toNat_of_nonneg hyw

/-- In exact arithmetic the conversion back undoes the conversion of an index. -/
theorem worldToGrid_gridToWorld (f : PotentialField) (min : ℚ) (i : ℤ)
    (hreso : 0 < f.reso_) :
    worldToGrid f (gridToWorld f i min) min = i := by
  unfold worldToGrid gridToWorld
  rw [add_sub_cancel_right, mul_div_assoc, div_self hreso.ne', mul_one]
  exact cppRound_intCast i

/-- Claim C8, as amended.  For every `resolution > 0`, every lower bound `min`
(`minx` or `miny`) and every integer index `i`: converting the index to a world
coordinate by `i * resolution + min` and back by
`round((coord - min) / resolution)`, the two conversions used in `plan`, yields
`i` again whenever the rounding `rnd` of the float operations leaves `i`,
`i * resolution` and `i * resolution + min` as they are; in particular it does
in exact arithmetic. -/
theorem roundTrip_of_exact (rnd : ℚ → ℚ) (f : PotentialField) (min : ℚ) (i : ℤ)
    (hreso : 0 < f.reso_) (hi : rnd i = i)
    (hmul : rnd (i * f.reso_) = i * f.reso_)
    (hadd : rnd (i * f.reso_ + min) = i * f.reso_ + min) :
    worldToGridRounded rnd f (gridToWorldRounded rnd f i min) min = i ∧
    worldToGrid f (gridToWorld f i min) min = i := by
  refine ⟨?_, worldToGrid_gridToWorld f min i hreso⟩
  unfold worldToGridRounded gridToWorldRounded
  rw [hi, hmul, hadd, add_sub_cancel_right, hmul, mul_div_assoc, div_self hreso.ne', mul_one,
    hi]
  exact cppRound_intCast i

/-! ## The search loop -/

theorem generatePotentialMap_reso (hypot : ℚ → ℚ → ℚ) (f g : PotentialField)
    (gx gy : ℚ) (h : generatePotentialMap hypot f gx gy = some g) :
    g.reso_ = f.reso_ := by
  unfold generatePotentialMap at h
  split_ifs at h
  obtain rfl := Option.some.inj h
  rfl

theorem generatePotentialMap_ne_none (hypot : ℚ → ℚ → ℚ) (f : PotentialField)
    (gx gy : ℚ) :
    generatePotentialMap hypot f gx gy ≠ none ↔ 0 ≤ xw f ∧ 0 ≤ yw f := by
  unfold generatePotentialMap
  split_ifs with h
  · simp only [ne_eq, not_true_eq_false, false_iff]
    omega
  · simp only [ne_eq, reduceCtorEq, not_false_eq_true, true_iff]
    omega

/-- The loop returns at once when `d < reso_` on entry. -/
theorem planLoop_of_lt (hypot : ℚ → ℚ → ℚ) (f : PotentialField) (gx gy : ℚ)
    (fuel : ℕ) (ix iy : ℤ) (d : ℚ) (path : Path) (hd : d < f.reso_) :
    planLoop hypot f gx gy fuel ix iy d path = .done path := by
  cases fuel <;> simp only [planLoop, if_neg (not_le.mpr hd)]

/-- When the loop returns, the distance `d` of its last test is below `reso_`,
and `d` is the distance from the goal to the last waypoint appended. -/
theorem planLoop_last (hypot : ℚ → ℚ → ℚ) (f : PotentialField) (gx gy : ℚ)
    (fuel : ℕ) (ix iy : ℤ) (d : ℚ) (path res : Path)
    (hinv : ∀ w, path.getLast? = some w → d = hypot (gx - w.1) (gy - w.2))
    (h : planLoop hypot f gx gy fuel ix iy d path = .done res) :
    ∀ w, res.getLast? = some w → hypot (gx - w.1) (gy - w.2) < f.reso_ := by
  induction fuel generalizing ix iy d path with
  | zero =>
    unfold planLoop at h
    split_ifs at h with hd
    obtain rfl := PlanResult.done.inj h
    intro w hw
    rw [← hinv w hw]
    exact not_le.mp hd
  | succ n ih =>
    unfold planLoop at h
    split_ifs at h with hd
    · cases hs : searchNeighbours f ix iy with
      | none => rw [hs] at h; cases h
      | some r =>
        obtain ⟨p, minix, miniy⟩ := r
        rw [hs] at h
        refine ih minix miniy _ _ ?_ h
        intro w hw
        rw [List.getLast?_concat] at hw
        obtain rfl := Option.some.inj hw
        rfl
    · obtain rfl := PlanResult.done.inj h
      intro w hw
      rw [← hinv w hw]
      exact not_le.mp hd

/-- Claim C10.  For every input on which `plan` returns a non-empty path, the
final waypoint `w` of the returned path lies at distance strictly less than
`resolution` from the goal `(gx, gy)`, the distance being the value
`std::hypot(gx - w.x, gy - w.y)` that the loop tests. -/
theorem plan_last_waypoint_near_goal (hypot : ℚ → ℚ → ℚ) (f : PotentialField)
    (sx sy gx gy : ℚ) (fuel : ℕ) (path : Path) (w : ℚ × ℚ)
    (h : plan hypot f sx sy gx gy fuel = .done path)
    (hw : path.getLast? = some w) :
    hypot (gx - w.1) (gy - w.2) < f.reso_ := by
  unfold plan at h
  cases hg : generatePotentialMap hypot f gx gy with
  | none => rw [hg] at h; cases h
  | some g =>
    rw [hg] at h
    rw [← generatePotentialMap_reso hypot f g gx gy hg]
    exact planLoop_last hypot g gx gy fuel _ _ _ [] path (by simp) h w hw

/-! ## The search on `smallField` -/

theorem range_two : List.range 2 = [0, 1] := by decide

theorem smallField_xw : xw smallField = 2 := by
  norm_num [xw, smallField, cppRound]

theorem smallField_yw : yw smallField = 2 := by
  norm_num [yw, smallField, cppRound]

theorem generatePotentialMap_smallField :
    generatePotentialMap hypotQ smallField 0 (-1) = some smallFieldMapped := by
  rw [generatePotentialMap_eq hypotQ smallField 0 (-1) (by rw [smallField_xw]; decide)
    (by rw [smallField_yw]; decide), smallField_xw, smallField_yw]
  have h2 : (2 : ℤ).toNat = 2 := rfl
  rw [h2, range_two]
  norm_num [ cellPotential, gridToWorld,
    calculateAttractivePotential, calculateRepulsivePotential, closestObstacleDistance,
    clampDq, hypotQ, Rat.sqrt, FLT_MAX, smallField, smallFieldMapped]

theorem searchNeighbours_smallFieldMapped :
    searchNeighbours smallFieldMapped 0 0 = some (0, 1, 0) := by
  norm_num [searchNeighbours, searchUpdate, candidatePotential, smallFieldMapped, smallField,
    motionModel8, toSizeT, FLT_MAX]

theorem plan_smallField :
    plan hypotQ smallField (-1) (-1) 0 (-1) 5 = .done [(0, -1)] := by
  unfold plan
  rw [generatePotentialMap_smallField]
  simp only
  have h1 : hypotQ (-1 - 0) (-1 - -1) = 1 := by norm_num [hypotQ, Rat.sqrt]
  have h2 : worldToGrid smallFieldMapped (-1) smallFieldMapped.minx_ = 0 := by
    norm_num [worldToGrid, smallFieldMapped, smallField, cppRound]
  have h3 : worldToGrid smallFieldMapped (-1) smallFieldMapped.miny_ = 0 := by
    norm_num [worldToGrid, smallFieldMapped, smallField, cppRound]
  rw [h1, h2, h3]
  unfold planLoop
  rw [if_pos (by norm_num [smallFieldMapped, smallField]), searchNeighbours_smallFieldMapped]
  simp only
  have h4 : hypotQ (0 - gridToWorld smallFieldMapped 1 smallFieldMapped.minx_)
      (-1 - gridToWorld smallFieldMapped 0 smallFieldMapped.miny_) = 0 := by
    norm_num [gridToWorld, smallFieldMapped, smallField, hypotQ]
  rw [h4, planLoop_of_lt _ _ _ _ _ _ _ _ _ (by norm_num [smallFieldMapped, smallField])]
  norm_num [gridToWorld, smallFieldMapped, smallField]

/-! ## Instances of the theorems on the concrete fields -/

theorem construct_tenthField :
    construct motionModel8 [0] [0] (13421773 / 134217728) (1 / 2) 1 1 (1 / 4)
      = some tenthField := by
  simp [construct, minElement, maxElement, tenthField, smallField]
  norm_num

/-- The dimensions of `tenthField`, whose resolution is `0.1f`: the exact
quotient `0.25 / 0.1f` is below `2.5` and rounds to `2`, the `float` quotient is
`2.5f` and rounds to `3`. -/
theorem tenthField_dimensions :
    xwRounded roundF32 tenthField = 3 ∧ ywRounded roundF32 tenthField = 3 ∧
    xw tenthField = 2 ∧ yw tenthField = 2 := by
  have e1 : tenthField.maxx_ - tenthField.minx_ = 1 / 4 := by
    norm_num [tenthField, smallField]
  have e2 : tenthField.maxy_ - tenthField.miny_ = 1 / 4 := by
    norm_num [tenthField, smallField]
  have e3 : tenthField.reso_ = 13421773 / 134217728 := rfl
  have h3 : cppRound (5 / 2) = 3 := by norm_num [cppRound]
  have h2 : cppRound (1 / 4 / (13421773 / 134217728)) = 2 := by
    rw [cppRound, if_pos (by norm_num), Int.floor_eq_iff]
    norm_num
  refine ⟨?_, ?_, ?_, ?_⟩
  · rw [xwRounded, e1, e3, roundF32_quarter, roundF32_quarter_div_tenth, h3]
  · rw [ywRounded, e2, e3, roundF32_quarter, roundF32_quarter_div_tenth, h3]
  · rw [xw, e1, e3, h2]
  · rw [yw, e2, e3, h2]

theorem generatePotentialMap_dimensions_witness :
    ((∀ a b, a ≤ b → roundF32 a ≤ roundF32 b) ∧ roundF32 0 = 0) ∧
    0 < tenthField.reso_ ∧ tenthField.minx_ ≤ tenthField.maxx_ ∧
    tenthField.miny_ ≤ tenthField.maxy_ ∧
    (IsInt (cppRound (roundF32
        (roundF32 (tenthField.maxx_ - tenthField.minx_) / tenthField.reso_))) ∧
      IsInt (cppRound (roundF32
        (roundF32 (tenthField.maxy_ - tenthField.miny_) / tenthField.reso_)))) ∧
    cppRound (roundF32
      (roundF32 (tenthField.maxx_ - tenthField.minx_) / tenthField.reso_)) = 3 ∧
    ∃ g, generatePotentialMapRounded roundF32 hypotQ tenthField 0 0 = .stored g ∧
      (g.pmap_.length : ℤ) = cppRound (roundF32
        (roundF32 (tenthField.maxx_ - tenthField.minx_) / tenthField.reso_)) ∧
      ∀ row ∈ g.pmap_, (row.length : ℤ) = cppRound (roundF32
        (roundF32 (tenthField.maxy_ - tenthField.miny_) / tenthField.reso_)) :=
  have h0 : (∀ a b, a ≤ b → roundF32 a ≤ roundF32 b) ∧ roundF32 0 = 0 :=
    ⟨roundF32_mono, roundF32_zero⟩
  have h1 : 0 < tenthField.reso_ := by norm_num [tenthField, smallField]
  have h2 : tenthField.minx_ ≤ tenthField.maxx_ := by norm_num [tenthField, smallField]
  have h3 : tenthField.miny_ ≤ tenthField.maxy_ := by norm_num [tenthField, smallField]
  have hx : cppRound (roundF32
      (roundF32 (tenthField.maxx_ - tenthField.minx_) / tenthField.reso_)) = 3 :=
    tenthField_dimensions.1
  have hy : cppRound (roundF32
      (roundF32 (tenthField.maxy_ - tenthField.miny_) / tenthField.reso_)) = 3 :=
    tenthField_dimensions.2.1
  have h4 : IsInt (cppRound (roundF32
        (roundF32 (tenthField.maxx_ - tenthField.minx_) / tenthField.reso_))) ∧
      IsInt (cppRound (roundF32
        (roundF32 (tenthField.maxy_ - tenthField.miny_) / tenthField.reso_))) := by
    rw [hx, hy]
    unfold IsInt
    omega
  ⟨h0, h1, h2, h3, h4, hx,
    generatePotentialMap_dimensions roundF32 hypotQ tenthField 0 0 h0 h1 h2 h3 h4⟩

/-- Claim C7 as stated fails where a count is not a value of `int`.  The field
`fineField` is the one the constructor builds from one obstacle at the origin
with `resolution = 2^-34 > 0`, a float, and `area_width = 2`: its bounds are
`-1` and `1` on both axes.  Line 49 computes the quotient `2 / 2^-34 = 2^35`,
which no `int` holds: the conversion of line 49 is undefined, and no map of
`2^35` entries is built. -/
theorem generatePotentialMap_dimension_exceeds_int :
    construct motionModel8 [0] [0] (1 / 2 ^ 34) (1 / 2) 1 1 2 = some fineField ∧
    0 < fineField.reso_ ∧ fineField.minx_ ≤ fineField.maxx_ ∧
    fineField.miny_ ≤ fineField.maxy_ ∧
    cppRound (roundF32 (roundF32 (fineField.maxx_ - fineField.minx_) / fineField.reso_))
      = 2 ^ 35 ∧
    ¬ IsInt (cppRound
      (roundF32 (roundF32 (fineField.maxx_ - fineField.minx_) / fineField.reso_))) ∧
    generatePotentialMapRounded roundF32 hypotQ fineField 0 0 = .undefinedConversion := by
  have e1 : fineField.maxx_ - fineField.minx_ = 2 := by norm_num [fineField, smallField]
  have e3 : fineField.reso_ = 1 / 2 ^ 34 := rfl
  have hc : cppRound (34359738368 : ℚ) = 34359738368 := by
    have e : (34359738368 : ℚ) = ((34359738368 : ℤ) : ℚ) := by norm_num
    rw [e, cppRound_intCast]
  have hx : cppRound
      (roundF32 (roundF32 (fineField.maxx_ - fineField.minx_) / fineField.reso_))
        = 2 ^ 35 := by
    rw [e1, e3, roundF32_two, roundF32_two_pow_35, hc]
    norm_num
  refine ⟨?_, by norm_num [fineField, smallField], by norm_num [fineField, smallField],
    by norm_num [fineField, smallField], hx, ?_, ?_⟩
  · simp [construct, minElement, maxElement, fineField, smallField]
  · rw [hx]
    unfold IsInt
    omega
  · have hx2 : xwRounded roundF32 fineField = 2 ^ 35 := hx
    unfold generatePotentialMapRounded
    simp only
    rw [hx2, if_neg (by omega)]

theorem roundTrip_of_exact_witness :
    0 < smallField.reso_ ∧ roundF32 ((1 : ℤ) : ℚ) = ((1 : ℤ) : ℚ) ∧
    roundF32 (((1 : ℤ) : ℚ) * smallField.reso_) = ((1 : ℤ) : ℚ) * smallField.reso_ ∧
    roundF32 (((1 : ℤ) : ℚ) * smallField.reso_ + smallField.minx_)
      = ((1 : ℤ) : ℚ) * smallField.reso_ + smallField.minx_ ∧
    worldToGridRounded roundF32 smallField
      (gridToWorldRounded roundF32 smallField 1 smallField.minx_) smallField.minx_ = 1 ∧
    worldToGrid smallField (gridToWorld smallField 1 smallField.minx_) smallField.minx_ = 1 :=
  have h1 : 0 < smallField.reso_ := by norm_num [smallField]
  have h2 : roundF32 ((1 : ℤ) : ℚ) = ((1 : ℤ) : ℚ) := by
    rw [Int.cast_one]; exact roundF32_one
  have h3 : roundF32 (((1 : ℤ) : ℚ) * smallField.reso_) = ((1 : ℤ) : ℚ) * smallField.reso_ := by
    have e : ((1 : ℤ) : ℚ) * smallField.reso_ = 1 := by norm_num [smallField]
    rw [e]; exact roundF32_one
  have h4 : roundF32 (((1 : ℤ) : ℚ) * smallField.reso_ + smallField.minx_)
      = ((1 : ℤ) : ℚ) * smallField.reso_ + smallField.minx_ := by
    have e : ((1 : ℤ) : ℚ) * smallField.reso_ + smallField.minx_ = 0 := by
      norm_num [smallField]
    rw [e]; exact roundF32_zero
  ⟨h1, h2, h3, h4, roundTrip_of_exact roundF32 smallField smallField.minx_ 1 h1 h2 h3 h4⟩

/-- Claim C8 as stated fails in `float` arithmetic.  The field `farField` is the
one the constructor builds from one obstacle at `x = -(2^27 - 8)` with
`resolution = 0.5` and `area_width = 16`, so `minx = -2^27` and the map has 32
columns.  For the in-range index `1`, line 111 computes
`1 * 0.5f + -134217728.0f`, which rounds to `-134217728.0f = minx`: the
neighbouring floats are 8 apart there.  Line 84 then gives
`round((minx - minx) / 0.5) = 0`, not `1`. -/
theorem roundTrip_lost_far_from_origin :
    construct motionModel8 [-134217720] [0] (1 / 2) 5 5 100 16 = some farField ∧
    0 < farField.reso_ ∧ (0 : ℤ) ≤ 1 ∧ 1 < xw farField ∧
    gridToWorldRounded roundF32 farField 1 farField.minx_ = farField.minx_ ∧
    worldToGridRounded roundF32 farField
      (gridToWorldRounded roundF32 farField 1 farField.minx_) farField.minx_ = 0 := by
  have hxw : xw farField = 32 := by
    have e : (farField.maxx_ - farField.minx_) / farField.reso_ = ((32 : ℤ) : ℚ) := by
      norm_num [farField]
    rw [xw, e, cppRound_intCast]
  have hc : gridToWorldRounded roundF32 farField 1 farField.minx_ = farField.minx_ := by
    have e1 : ((1 : ℤ) : ℚ) = 1 := Int.cast_one
    have e2 : (1 : ℚ) * farField.reso_ = 1 / 2 := by norm_num [farField]
    have e3 : farField.minx_ = -134217728 := rfl
    rw [gridToWorldRounded, e1, roundF32_one, e2, roundF32_half, e3,
      roundF32_half_sub_two_pow]
  refine ⟨construct_farField, by norm_num [farField], by decide, by rw [hxw]; decide, hc, ?_⟩
  rw [hc, worldToGridRounded, sub_self, roundF32_zero, zero_div, roundF32_zero]
  exact cppRound_intCast 0

theorem plan_last_waypoint_near_goal_witness :
    plan hypotQ smallField (-1) (-1) 0 (-1) 5 = .done [(0, -1)] ∧
    ([(0, -1)] : Path).getLast? = some (0, -1) ∧
    hypotQ (0 - 0) (-1 - -1) < smallField.reso_ :=
  ⟨plan_smallField, rfl,
    plan_last_waypoint_near_goal hypotQ smallField (-1) (-1) 0 (-1) 5 [(0, -1)] (0, -1)
      plan_smallField rfl⟩

/-! ## Bounds of the repulsive potential -/

/-- Claim C19.  For every obstacle list, every point `(x, y)`, every
`robot_radius > 0` and every `eta ≥ 0`, the value of
`calculateRepulsivePotential(x, y)` lies between `0` and
`0.5 * eta * (1/0.1 - 1/robot_radius)^2`, the value at the location of an
obstacle. -/
theorem repulsive_bounded (hypot : ℚ → ℚ → ℚ) (f : PotentialField) (x y : ℚ)
    (hpar : 0 < f.rr_ ∧ 0 ≤ f.eta_) :
    0 ≤ calculateRepulsivePotential hypot f x y ∧
    calculateRepulsivePotential hypot f x y
      ≤ 1 / 2 * f.eta_ * (1 / (1 / 10) - 1 / f.rr_) ^ 2 := by
  have heta : 0 ≤ f.eta_ := hpar.2
  unfold calculateRepulsivePotential
  simp only
  split_ifs with h
  · refine ⟨by positivity, ?_⟩
    apply mul_le_mul_of_nonneg_left _ (by positivity)
    unfold clampDq
    split_ifs with hc
    · exact le_refl _
    · have hdq : (1 : ℚ) / 10 < closestObstacleDistance hypot f x y := not_le.mp hc
      have hpos : 0 < closestObstacleDistance hypot f x y := lt_trans (by norm_num) hdq
      have h1 : 1 / f.rr_ ≤ 1 / closestObstacleDistance hypot f x y :=
        one_div_le_one_div_of_le hpos h
      have h2 : 1 / closestObstacleDistance hypot f x y ≤ 1 / (1 / 10) :=
        one_div_le_one_div_of_le (by norm_num) hdq.le
      exact sq_le_sq' (by linarith) (by linarith)
  · exact ⟨le_refl _, by positivity⟩

theorem repulsive_bounded_witness :
    (0 < smallField.rr_ ∧ 0 ≤ smallField.eta_) ∧
    0 ≤ calculateRepulsivePotential hypotQ smallField 0 0 ∧
    calculateRepulsivePotential hypotQ smallField 0 0
      ≤ 1 / 2 * smallField.eta_ * (1 / (1 / 10) - 1 / smallField.rr_) ^ 2 :=
  have h : 0 < smallField.rr_ ∧ 0 ≤ smallField.eta_ := by norm_num [smallField]
  ⟨h, repulsive_bounded hypotQ smallField 0 0 h⟩

/-! ## The waypoints before the last -/

/-- When the loop returns, every waypoint before the last was tested at line 90
with a distance of at least `reso_`. -/
theorem planLoop_earlier (hypot : ℚ → ℚ → ℚ) (f : PotentialField) (gx gy : ℚ)
    (fuel : ℕ) (ix iy : ℤ) (d : ℚ) (path res : Path)
    (hinv : ∀ init w, path = init ++ [w] →
      d = hypot (gx - w.1) (gy - w.2) ∧
        ∀ v ∈ init, f.reso_ ≤ hypot (gx - v.1) (gy - v.2))
    (h : planLoop hypot f gx gy fuel ix iy d path = .done res) :
    ∀ init w, res = init ++ [w] →
      hypot (gx - w.1) (gy - w.2) < f.reso_ ∧
        ∀ v ∈ init, f.reso_ ≤ hypot (gx - v.1) (gy - v.2) := by
  induction fuel generalizing ix iy d path with
  | zero =>
    unfold planLoop at h
    split_ifs at h with hd
    obtain rfl := PlanResult.done.inj h
    intro init w hw
    obtain ⟨h1, h2⟩ := hinv init w hw
    exact ⟨h1 ▸ not_le.mp hd, h2⟩
  | succ n ih =>
    unfold planLoop at h
    split_ifs at h with hd
    · cases hs : searchNeighbours f ix iy with
      | none => rw [hs] at h; cases h
      | some r =>
        obtain ⟨p, minix, miniy⟩ := r
        rw [hs] at h
        refine ih minix miniy _ _ ?_ h
        intro init w hw
        obtain ⟨rfl, hw2⟩ := List.append_inj' hw rfl
        obtain rfl := List.singleton_injective hw2
        refine ⟨rfl, fun v hv => ?_⟩
        rcases List.eq_nil_or_concat path with hnil | ⟨init0, w0, hc⟩
        · rw [hnil] at hv; cases hv
        · rw [List.concat_eq_append] at hc
          obtain ⟨h1, h2⟩ := hinv init0 w0 hc
          rw [hc, List.mem_append, List.mem_singleton] at hv
          rcases hv with hv | rfl
          · exact h2 v hv
          · exact h1 ▸ hd
    · obtain rfl := PlanResult.done.inj h
      intro init w hw
      obtain ⟨h1, h2⟩ := hinv init w hw
      exact ⟨h1 ▸ not_le.mp hd, h2⟩

/-- Claim C17.  For every input on which `plan` returns a non-empty path, the
last waypoint `w` is the closest cell reached: every earlier waypoint `v` of the
path is at distance at least `resolution` from the goal, and the distance of `w`
is strictly smaller than that of `v`.  The distances are the values of
`std::hypot` that the loop tests. -/
theorem plan_last_waypoint_closest (hypot : ℚ → ℚ → ℚ) (f : PotentialField)
    (sx sy gx gy : ℚ) (fuel : ℕ) (init : Path) (w : ℚ × ℚ)
    (h : plan hypot f sx sy gx gy fuel = .done (init ++ [w])) :
    ∀ v ∈ init, f.reso_ ≤ hypot (gx - v.1) (gy - v.2) ∧
      hypot (gx - w.1) (gy - w.2) < hypot (gx - v.1) (gy - v.2) := by
  unfold plan at h
  cases hg : generatePotentialMap hypot f gx gy with
  | none => rw [hg] at h; cases h
  | some g =>
    rw [hg] at h
    have hres := planLoop_earlier hypot g gx gy fuel _ _ _ [] (init ++ [w])
      (fun i0 w0 h0 => absurd h0 (by simp)) h init w rfl
    rw [generatePotentialMap_reso hypot f g gx gy hg] at hres
    exact fun v hv => ⟨hres.2 v hv, lt_of_lt_of_le hres.1 (hres.2 v hv)⟩

/-! ## The bounds check of the neighbour loop -/

theorem toSizeT_lt_iff (z : ℤ) (n : ℕ) (hz : IsInt z) (hn : (n : ℤ) < 2 ^ 31) :
    toSizeT z < n ↔ 0 ≤ z ∧ z < n := by
  unfold IsInt at hz
  unfold toSizeT
  omega

theorem toSizeT_eq_toNat (z : ℤ) (hz : IsInt z) (h0 : 0 ≤ z) : toSizeT z = z.toNat := by
  unfold IsInt at hz
  unfold toSizeT
  omega

/-- On a map of the shape of line 53 the candidate of lines 96-102 is the
sentinel, or the stored value of a cell that the two comparisons of line 98 let
through; it is never a read outside a vector. -/
theorem candidatePotential_shaped (g : PotentialField) (hs : MapShaped g)
    (inx iny : ℤ) :
    (¬ readsMap g inx iny ∧ candidatePotential g inx iny = some FLT_MAX) ∨
    (readsMap g inx iny ∧ (toSizeT inx : ℤ) < xw g ∧ (toSizeT iny : ℤ) < yw g ∧
      ∃ row v, g.pmap_[toSizeT inx]? = some row ∧ row[toSizeT iny]? = some v ∧
        candidatePotential g inx iny = some v) := by
  obtain ⟨_, _, hlen, hrows⟩ := hs
  unfold candidatePotential readsMap
  by_cases h1 : g.pmap_.length ≤ toSizeT inx
  · left
    exact ⟨fun h => absurd h.1 (not_lt.mpr h1), by rw [if_pos h1]⟩
  · rw [if_neg h1]
    have hlt : toSizeT inx < g.pmap_.length := not_le.mp h1
    have hpos : 0 < g.pmap_.length := lt_of_le_of_lt (Nat.zero_le _) hlt
    obtain ⟨row0, hrow0⟩ : ∃ row0, g.pmap_[0]? = some row0 :=
      ⟨g.pmap_[0], List.getElem?_eq_getElem hpos⟩
    have hmem0 : row0 ∈ g.pmap_ := List.getElem?_mem hrow0
    have hl0 := hrows row0 hmem0
    rw [hrow0]
    simp only
    by_cases h2 : row0.length ≤ toSizeT iny
    · left
      refine ⟨fun h => absurd (h.2 row0 rfl) (not_lt.mpr h2), by rw [if_pos h2]⟩
    · rw [if_neg h2]
      right
      have hrow : g.pmap_[toSizeT inx]? = some g.pmap_[toSizeT inx] :=
        List.getElem?_eq_getElem hlt
      have hmem : g.pmap_[toSizeT inx] ∈ g.pmap_ := List.getElem_mem hlt
      have hl := hrows _ hmem
      have hlt2 : toSizeT iny < (g.pmap_[toSizeT inx]).length := by omega
      refine ⟨⟨hlt, fun r hr => ?_⟩, by omega, by omega, _, _, hrow,
        List.getElem?_eq_getElem hlt2, ?_⟩
      · obtain rfl := Option.some.inj hr
        exact not_le.mp h2
      · rw [hrow]
        exact List.getElem?_eq_getElem hlt2

/-! ## The running minimum of the neighbour loop -/

/-- The `for` loop over the offsets `l`, from the running minimum
`(p0, a0, b0)`: it keeps its start when no potential is below `p0`, and
otherwise ends at the first offset that attains the least potential. -/
theorem searchFold_spec (f : PotentialField) (ix iy : ℤ) (l : List (ℤ × ℤ))
    (hpot : ∀ m ∈ l, candidatePotential f (ix + m.1) (iy + m.2) ≠ none)
    (p0 : ℚ) (a0 b0 : ℤ) :
    ∃ p a b, l.foldl (searchUpdate f ix iy) (some (p0, a0, b0)) = some (p, a, b) ∧
      ((p = p0 ∧ a = a0 ∧ b = b0 ∧ ∀ m ∈ l, p0 ≤ neighbourPotential f ix iy m) ∨
       (∃ pre m post, l = pre ++ m :: post ∧ p = neighbourPotential f ix iy m ∧
          a = ix + m.1 ∧ b = iy + m.2 ∧ p < p0 ∧
          (∀ x ∈ pre, p < neighbourPotential f ix iy x) ∧
          (∀ x ∈ post, p ≤ neighbourPotential f ix iy x))) := by
  induction l generalizing p0 a0 b0 with
  | nil => exact ⟨p0, a0, b0, rfl, Or.inl ⟨rfl, rfl, rfl, fun m hm => absurd hm (List.not_mem_nil m)⟩⟩
  | cons m l ih =>
    have hl : ∀ x ∈ l, candidatePotential f (ix + x.1) (iy + x.2) ≠ none :=
      fun x hx => hpot x (List.mem_cons_of_mem m hx)
    obtain ⟨v, hv⟩ := Option.ne_none_iff_exists'.mp (hpot m (List.mem_cons_self m l))
    have hnp : neighbourPotential f ix iy m = v := by
      rw [neighbourPotential, hv]; rfl
    by_cases hlt : v < p0
    · have hstep : searchUpdate f ix iy (some (p0, a0, b0)) m
          = some (v, ix + m.1, iy + m.2) := by
        simp only [searchUpdate, hv, if_pos hlt]
      obtain ⟨p, a, b, hfold, hcase⟩ := ih hl v (ix + m.1) (iy + m.2)
      refine ⟨p, a, b, by rw [List.foldl_cons, hstep, hfold], Or.inr ?_⟩
      rcases hcase with ⟨rfl, rfl, rfl, hall⟩ | ⟨pre, m2, post, rfl, hp, ha, hb, hlt2, hpre, hpost⟩
      · exact ⟨[], m, l, rfl, hnp.symm, rfl, rfl, hlt, fun x hx => absurd hx (List.not_mem_nil x),
          hall⟩
      · refine ⟨m :: pre, m2, post, rfl, hp, ha, hb, lt_trans hlt2 hlt, ?_, hpost⟩
        intro x hx
        rcases List.mem_cons.mp hx with rfl | hx
        · rw [hnp]; exact hlt2
        · exact hpre x hx
    · have hstep : searchUpdate f ix iy (some (p0, a0, b0)) m = some (p0, a0, b0) := by
        simp only [searchUpdate, hv, if_neg hlt]
      obtain ⟨p, a, b, hfold, hcase⟩ := ih hl p0 a0 b0
      refine ⟨p, a, b, by rw [List.foldl_cons, hstep, hfold], ?_⟩
      rcases hcase with ⟨rfl, rfl, rfl, hall⟩ | ⟨pre, m2, post, rfl, hp, ha, hb, hlt2, hpre, hpost⟩
      · left
        refine ⟨rfl, rfl, rfl, fun x hx => ?_⟩
        rcases List.mem_cons.mp hx with rfl | hx
        · rw [hnp]; exact not_lt.mp hlt
        · exact hall x hx
      · right
        refine ⟨m :: pre, m2, post, rfl, hp, ha, hb, hlt2, ?_, hpost⟩
        intro x hx
        rcases List.mem_cons.mp hx with rfl | hx
        · rw [hnp]; exact lt_of_lt_of_le hlt2 (not_lt.mp hlt)
        · exact hpre x hx

/-! ## The map that `plan` searches -/

/-- The object after `generatePotentialMap`: the map has the shape of line 53
and the other members are unchanged. -/
theorem generatePotentialMap_shaped (hypot : ℚ → ℚ → ℚ) (f g : PotentialField)
    (gx gy : ℚ) (h : generatePotentialMap hypot f gx gy = some g) :
    MapShaped g ∧ xw g = xw f ∧ yw g = yw f ∧ g.reso_ = f.reso_ ∧
      g.minx_ = f.minx_ ∧ g.miny_ = f.miny_ ∧ g.motion_model_ = f.motion_model_ := by
  have hn := (generatePotentialMap_ne_none hypot f gx gy).mp (by simp [h])
  rw [generatePotentialMap_eq hypot f gx gy hn.1 hn.2] at h
  obtain rfl := Option.some.inj h
  refine ⟨⟨hn.1, hn.2, ?_, ?_⟩, rfl, rfl, rfl, rfl, rfl, rfl⟩
  · simp only [List.length_map, List.length_range]
    exact Int.toNat_of_nonneg hn.1
  · intro row hrow
    simp only [List.mem_map, List.mem_range] at hrow
    obtain ⟨ix, _, rfl⟩ := hrow
    simp only [List.length_map, List.length_range]
    exact Int.toNat_of_nonneg hn.2

theorem candidatePotential_ne_none (g : PotentialField) (hs : MapShaped g)
    (inx iny : ℤ) : candidatePotential g inx iny ≠ none := by
  rcases candidatePotential_shaped g hs inx iny with ⟨_, h⟩ | ⟨_, _, _, _, _, _, _, h⟩ <;>
    rw [h] <;> exact Option.some_ne_none _

/-- For indices of the type `int` the two comparisons of line 98 let through
exactly the cells inside the map, and the candidate of a cell inside the map is
its stored value. -/
theorem candidatePotential_int (g : PotentialField) (hs : MapShaped g)
    (hxw : IsInt (xw g)) (hyw : IsInt (yw g)) (inx iny : ℤ)
    (hix : IsInt inx) (hiy : IsInt iny) :
    (InMap g inx iny ∧ readsMap g inx iny ∧
      ∃ v, storedPotential g inx iny = some v ∧ candidatePotential g inx iny = some v) ∨
    (¬ InMap g inx iny ∧ ¬ readsMap g inx iny ∧
      candidatePotential g inx iny = some FLT_MAX) := by
  have hlen := hs.2.2.1
  have hrows := hs.2.2.2
  have hxi := toSizeT_lt_iff inx g.pmap_.length hix (by rw [hlen]; exact hxw.2)
  rcases candidatePotential_shaped g hs inx iny with ⟨hr, hc⟩ | ⟨hr, hx, hy, row, v, hrow, hv, hc⟩
  · right
    refine ⟨fun hin => hr ⟨hxi.mpr ⟨hin.1, by rw [hlen]; exact hin.2.1⟩, fun row0 h0 => ?_⟩,
      hr, hc⟩
    have hl0 := hrows row0 (List.getElem?_mem h0)
    exact (toSizeT_lt_iff iny row0.length hiy (by rw [hl0]; exact hyw.2)).mpr
      ⟨hin.2.2.1, by rw [hl0]; exact hin.2.2.2⟩
  · left
    have hx2 := (hxi.mp hr.1)
    have hl := hrows row (List.getElem?_mem hrow)
    have hlt : toSizeT iny < row.length := by
      rw [List.getElem?_eq_some_iff] at hv
      exact hv.1
    have hy2 := (toSizeT_lt_iff iny row.length hiy (by rw [hl]; exact hyw.2)).mp hlt
    refine ⟨⟨hx2.1, by rw [← hlen]; exact hx2.2, hy2.1, by rw [← hl]; exact hy2.2⟩, hr, v, ?_, hc⟩
    unfold storedPotential
    rw [← toSizeT_eq_toNat inx hix hx2.1, hrow]
    simp only
    rw [← toSizeT_eq_toNat iny hiy hy2.1, hv]

theorem searchNeighbours_ne_none (g : PotentialField) (hs : MapShaped g) (ix iy : ℤ) :
    searchNeighbours g ix iy ≠ none := by
  obtain ⟨p, a, b, h, _⟩ := searchFold_spec g ix iy g.motion_model_
    (fun m _ => candidatePotential_ne_none g hs _ _) FLT_MAX (-1) (-1)
  unfold searchNeighbours
  rw [h]
  exact Option.some_ne_none _

theorem planLoop_ne_indexError (hypot : ℚ → ℚ → ℚ) (g : PotentialField)
    (hs : MapShaped g) (gx gy : ℚ) (fuel : ℕ) (ix iy : ℤ) (d : ℚ) (path : Path) :
    planLoop hypot g gx gy fuel ix iy d path ≠ .indexError := by
  induction fuel generalizing ix iy d path with
  | zero =>
    unfold planLoop
    split_ifs <;> exact fun h => PlanResult.noConfusion h
  | succ n ih =>
    unfold planLoop
    split_ifs
    · cases hn : searchNeighbours g ix iy with
      | none => exact absurd hn (searchNeighbours_ne_none g hs ix iy)
      | some r =>
        obtain ⟨p, a, b⟩ := r
        exact ih _ _ _ _
    · exact fun h => PlanResult.noConfusion h

/-- Claim C18.  For every field whose map dimensions are values of `int`, with
at least one column or not, and every start and goal, inside the bounding region
or not: `plan` never reads `pmap_` outside a vector, and in the neighbour loop
over the generated map the read `pmap_[inx][iny]` of line 101, for indices of
the type `int`, is reached only when `0 ≤ inx < xw` and `0 ≤ iny < yw`, where it
yields the stored value of that cell. -/
theorem plan_reads_in_bounds (hypot : ℚ → ℚ → ℚ) (f : PotentialField)
    (sx sy gx gy : ℚ) (hint : IsInt (xw f) ∧ IsInt (yw f)) :
    (∀ fuel, plan hypot f sx sy gx gy fuel ≠ .indexError) ∧
    ∀ g, generatePotentialMap hypot f gx gy = some g →
      ∀ inx iny, IsInt inx → IsInt iny →
        candidatePotential g inx iny ≠ none ∧
        (readsMap g inx iny →
          (0 ≤ inx ∧ inx < xw f ∧ 0 ≤ iny ∧ iny < yw f) ∧
          ∃ v, storedPotential g inx iny = some v ∧
            candidatePotential g inx iny = some v) := by
  constructor
  · intro fuel
    unfold plan
    cases hg : generatePotentialMap hypot f gx gy with
    | none => exact fun h => PlanResult.noConfusion h
    | some g =>
      exact planLoop_ne_indexError hypot g
        (generatePotentialMap_shaped hypot f g gx gy hg).1 gx gy fuel _ _ _ _
  · intro g hg inx iny hix hiy
    obtain ⟨hs, hx, hy, _⟩ := generatePotentialMap_shaped hypot f g gx gy hg
    refine ⟨candidatePotential_ne_none g hs inx iny, fun hr => ?_⟩
    rcases candidatePotential_int g hs (hx ▸ hint.1) (hy ▸ hint.2) inx iny hix hiy with
      ⟨hin, _, hv⟩ | ⟨_, hnr, _⟩
    · unfold InMap at hin
      rw [hx, hy] at hin
      exact ⟨hin, hv⟩
    · exact absurd hr hnr

/-! ## The neighbour chosen by a search step -/

/-- The potential of the neighbour at the offset `m`, for indices of the type
`int`: the stored value inside the map, the sentinel outside. -/
theorem neighbourPotential_int (g : PotentialField) (hs : MapShaped g)
    (hxw : IsInt (xw g)) (hyw : IsInt (yw g)) (ix iy : ℤ) (m : ℤ × ℤ)
    (hm : IsInt (ix + m.1) ∧ IsInt (iy + m.2)) :
    (InMap g (ix + m.1) (iy + m.2) ∧
      storedPotential g (ix + m.1) (iy + m.2) = some (neighbourPotential g ix iy m)) ∨
    (¬ InMap g (ix + m.1) (iy + m.2) ∧ neighbourPotential g ix iy m = FLT_MAX) := by
  unfold neighbourPotential
  rcases candidatePotential_int g hs hxw hyw _ _ hm.1 hm.2 with
    ⟨hin, _, v, hv, hc⟩ | ⟨hout, _, hc⟩
  · left; rw [hc]; exact ⟨hin, hv⟩
  · right; rw [hc]; exact ⟨hout, rfl⟩

/-- The result of the `for` loop of lines 94-108 on a map of the shape of line
53, for neighbour indices of the type `int`.  Either no neighbour inside the map
has a potential below the sentinel and the running minimum keeps its initial
value `(FLT_MAX, -1, -1)`, or the loop ends at a neighbour inside the map whose
stored potential is below the sentinel, below that of every neighbour inside
the map that comes earlier in the motion model and not above that of any that
comes later. -/
theorem searchNeighbours_int (g : PotentialField) (hs : MapShaped g)
    (hxw : IsInt (xw g)) (hyw : IsInt (yw g)) (ix iy : ℤ)
    (hnb : ∀ m ∈ g.motion_model_, IsInt (ix + m.1) ∧ IsInt (iy + m.2)) :
    ∃ p a b, searchNeighbours g ix iy = some (p, a, b) ∧
      ((p = FLT_MAX ∧ a = -1 ∧ b = -1 ∧
          ∀ m ∈ g.motion_model_, InMap g (ix + m.1) (iy + m.2) →
            ∀ v, storedPotential g (ix + m.1) (iy + m.2) = some v → FLT_MAX ≤ v) ∨
       (∃ pre m post, g.motion_model_ = pre ++ m :: post ∧
          a = ix + m.1 ∧ b = iy + m.2 ∧ InMap g a b ∧
          storedPotential g a b = some p ∧ p < FLT_MAX ∧
          (∀ x ∈ pre, InMap g (ix + x.1) (iy + x.2) →
            ∀ v, storedPotential g (ix + x.1) (iy + x.2) = some v → p < v) ∧
          (∀ x ∈ post, InMap g (ix + x.1) (iy + x.2) →
            ∀ v, storedPotential g (ix + x.1) (iy + x.2) = some v → p ≤ v))) := by
  have key : ∀ x ∈ g.motion_model_, InMap g (ix + x.1) (iy + x.2) →
      ∀ v, storedPotential g (ix + x.1) (iy + x.2) = some v →
        neighbourPotential g ix iy x = v := by
    intro x hx hin v hv
    rcases neighbourPotential_int g hs hxw hyw ix iy x (hnb x hx) with ⟨_, h⟩ | ⟨hout, _⟩
    · rw [h] at hv; exact Option.some.inj hv
    · exact absurd hin hout
  obtain ⟨p, a, b, hfold, hcase⟩ := searchFold_spec g ix iy g.motion_model_
    (fun m _ => candidatePotential_ne_none g hs _ _) FLT_MAX (-1) (-1)
  refine ⟨p, a, b, hfold, ?_⟩
  rcases hcase with ⟨rfl, rfl, rfl, hall⟩ |
    ⟨pre, m, post, hsplit, hp, ha, hb, hlt, hpre, hpost⟩
  · left
    refine ⟨rfl, rfl, rfl, fun m hm hin v hv => ?_⟩
    rw [← key m hm hin v hv]
    exact hall m hm
  · right
    have hmem : m ∈ g.motion_model_ := by rw [hsplit]; simp
    have hmemPre : ∀ x ∈ pre, x ∈ g.motion_model_ := fun x hx => by
      rw [hsplit]; exact List.mem_append_left _ hx
    have hmemPost : ∀ x ∈ post, x ∈ g.motion_model_ := fun x hx => by
      rw [hsplit]; exact List.mem_append_right _ (List.mem_cons_of_mem _ hx)
    rcases neighbourPotential_int g hs hxw hyw ix iy m (hnb m hmem) with ⟨hin, hst⟩ | ⟨_, hmax⟩
    · refine ⟨pre, m, post, hsplit, ha, hb, by rw [ha, hb]; exact hin,
        by rw [ha, hb, hp]; exact hst, hlt, ?_, ?_⟩
      · intro x hx hin v hv
        rw [← key x (hmemPre x hx) hin v hv]
        exact hpre x hx
      · intro x hx hin v hv
        rw [← key x (hmemPost x hx) hin v hv]
        exact hpost x hx
    · rw [hp, hmax] at hlt
      exact absurd hlt (lt_irrefl _)

/-- Claim C11, as amended.  For every search step of `plan`, from a cell
`(ix, iy)` whose neighbour indices are values of `int`, in which at least one
neighbour cell is inside the map with a stored potential below the sentinel
`FLT_MAX`: the cell moved to is a neighbour inside the map, its potential is
less than or equal to that of every neighbour inside the map, and strictly less
than that of every such neighbour that comes earlier in the motion model, so
among the neighbours tied for the minimum it is the first in iteration order; a
neighbour outside the map is not chosen. -/
theorem search_step_chooses_first_minimum (hypot : ℚ → ℚ → ℚ) (f g : PotentialField)
    (gx gy : ℚ) (ix iy : ℤ) (path : Path)
    (hg : generatePotentialMap hypot f gx gy = some g)
    (hint : IsInt (xw f) ∧ IsInt (yw f))
    (hnb : ∀ m ∈ g.motion_model_, IsInt (ix + m.1) ∧ IsInt (iy + m.2))
    (hsome : ∃ m ∈ g.motion_model_, InMap g (ix + m.1) (iy + m.2) ∧
      ∃ v, storedPotential g (ix + m.1) (iy + m.2) = some v ∧ v < FLT_MAX) :
    ∃ p pre m post, g.motion_model_ = pre ++ m :: post ∧
      searchNeighbours g ix iy = some (p, ix + m.1, iy + m.2) ∧
      (∃ d path2, planStep hypot g gx gy ix iy path = some (ix + m.1, iy + m.2, d, path2)) ∧
      InMap g (ix + m.1) (iy + m.2) ∧
      storedPotential g (ix + m.1) (iy + m.2) = some p ∧
      (∀ x ∈ g.motion_model_, InMap g (ix + x.1) (iy + x.2) →
        ∀ v, storedPotential g (ix + x.1) (iy + x.2) = some v → p ≤ v) ∧
      (∀ x ∈ pre, InMap g (ix + x.1) (iy + x.2) →
        ∀ v, storedPotential g (ix + x.1) (iy + x.2) = some v → p < v) := by
  obtain ⟨hs, hx, hy, _⟩ := generatePotentialMap_shaped hypot f g gx gy hg
  obtain ⟨p, a, b, hsearch, hcase⟩ :=
    searchNeighbours_int g hs (hx ▸ hint.1) (hy ▸ hint.2) ix iy hnb
  rcases hcase with ⟨rfl, _, _, hall⟩ |
    ⟨pre, m, post, hsplit, rfl, rfl, hin, hst, _, hpre, hpost⟩
  · obtain ⟨m, hm, hin, v, hv, hlt⟩ := hsome
    exact absurd (hall m hm hin v hv) (not_le.mpr hlt)
  · refine ⟨p, pre, m, post, hsplit, hsearch, ?_, hin, hst, ?_, hpre⟩
    · unfold planStep
      rw [hsearch]
      exact ⟨_, _, rfl⟩
    · intro x hx hxin v hv
      rw [hsplit, List.mem_append, List.mem_cons] at hx
      rcases hx with hx | rfl | hx
      · exact (hpre x hx hxin v hv).le
      · rw [hst] at hv
        exact (Option.some.inj hv).le
      · exact hpost x hx hxin v hv

/-- Claim C14, as amended.  For every search step of `plan`, from a cell whose
neighbour indices are values of `int`, in which all neighbour cells are outside
the map: every candidate gets the sentinel potential and none is selected, the
running minimum of the `for` loop ends at its initial value
`min_p = FLT_MAX`, `minix = miniy = -1`; and the pass completes, it reports no
failure. -/
theorem search_step_without_neighbour (hypot : ℚ → ℚ → ℚ) (f g : PotentialField)
    (gx gy : ℚ) (ix iy : ℤ) (path : Path)
    (hg : generatePotentialMap hypot f gx gy = some g)
    (hint : IsInt (xw f) ∧ IsInt (yw f))
    (hnb : ∀ m ∈ g.motion_model_, IsInt (ix + m.1) ∧ IsInt (iy + m.2))
    (hout : ∀ m ∈ g.motion_model_, ¬ InMap g (ix + m.1) (iy + m.2)) :
    searchNeighbours g ix iy = some (FLT_MAX, -1, -1) ∧
    ∃ s, planStep hypot g gx gy ix iy path = some s := by
  obtain ⟨hs, hx, hy, _⟩ := generatePotentialMap_shaped hypot f g gx gy hg
  obtain ⟨p, a, b, hsearch, hcase⟩ :=
    searchNeighbours_int g hs (hx ▸ hint.1) (hy ▸ hint.2) ix iy hnb
  rcases hcase with ⟨rfl, rfl, rfl, _⟩ | ⟨pre, m, post, hsplit, rfl, rfl, hin, _⟩
  · refine ⟨hsearch, ?_⟩
    unfold planStep
    rw [hsearch]
    exact ⟨_, rfl⟩
  · exact absurd hin (hout m (by rw [hsplit]; simp))

/-! ## The passes of the `while` loop -/

/-- The first of `n + 1` passes shown: the test of line 90, one pass of the
body, and `n` passes from the state it gives. -/
theorem planIterate_succ_front (hypot : ℚ → ℚ → ℚ) (f : PotentialField) (gx gy : ℚ)
    (n : ℕ) (ix iy : ℤ) (d : ℚ) (path : Path) :
    planIterate hypot f gx gy (n + 1) (ix, iy, d, path) =
      if f.reso_ ≤ d then
        match planStep hypot f gx gy ix iy path with
        | none => none
        | some s => planIterate hypot f gx gy n s
      else none := by
  induction n with
  | zero =>
    simp only [planIterate]
    split_ifs
    · cases planStep hypot f gx gy ix iy path <;> rfl
    · rfl
  | succ n ih =>
    rw [planIterate, ih]
    split_ifs
    · cases hstep : planStep hypot f gx gy ix iy path with
      | none => rfl
      | some s => simp only [planIterate]
    · rfl

/-- The loop returns `res` exactly when, after some number of passes within the
fuel, the test of line 90 fails in a state whose path is `res`. -/
theorem planLoop_done_iff (hypot : ℚ → ℚ → ℚ) (f : PotentialField) (gx gy : ℚ)
    (fuel : ℕ) (ix iy : ℤ) (d : ℚ) (path res : Path) :
    planLoop hypot f gx gy fuel ix iy d path = .done res ↔
      ∃ n, n ≤ fuel ∧ ∃ ix2 iy2 d2,
        planIterate hypot f gx gy n (ix, iy, d, path) = some (ix2, iy2, d2, res) ∧
          d2 < f.reso_ := by
  induction fuel generalizing ix iy d path with
  | zero =>
    unfold planLoop
    constructor
    · intro h
      split_ifs at h with hd
      obtain rfl := PlanResult.done.inj h
      exact ⟨0, le_refl _, ix, iy, d, rfl, not_le.mp hd⟩
    · rintro ⟨n, hn, ix2, iy2, d2, hit, hd2⟩
      obtain rfl : n = 0 := Nat.le_zero.mp hn
      simp only [planIterate, Option.some.injEq, Prod.mk.injEq] at hit
      obtain ⟨_, _, rfl, rfl⟩ := hit
      rw [if_neg (not_le.mpr hd2)]
  | succ m ih =>
    constructor
    · intro h
      unfold planLoop at h
      split_ifs at h with hd
      · cases hs : searchNeighbours f ix iy with
        | none => rw [hs] at h; cases h
        | some r =>
          obtain ⟨p, a, b⟩ := r
          rw [hs] at h
          obtain ⟨n, hn, ix2, iy2, d2, hit, hd2⟩ := (ih _ _ _ _).mp h
          refine ⟨n + 1, Nat.succ_le_succ hn, ix2, iy2, d2, ?_, hd2⟩
          rw [planIterate_succ_front, if_pos hd]
          simp only [planStep, hs]
          exact hit
      · obtain rfl := PlanResult.done.inj h
        exact ⟨0, Nat.zero_le _, ix, iy, d, rfl, not_le.mp hd⟩
    · rintro ⟨n, hn, ix2, iy2, d2, hit, hd2⟩
      cases n with
      | zero =>
        simp only [planIterate, Option.some.injEq, Prod.mk.injEq] at hit
        obtain ⟨_, _, rfl, rfl⟩ := hit
        exact planLoop_of_lt hypot f gx gy _ ix iy d path hd2
      | succ n =>
        rw [planIterate_succ_front] at hit
        split_ifs at hit with hd
        unfold planLoop
        rw [if_pos hd]
        cases hs : searchNeighbours f ix iy with
        | none => simp only [planStep, hs] at hit; cases hit
        | some r =>
          obtain ⟨p, a, b⟩ := r
          simp only [planStep, hs] at hit
          simp only
          exact (ih _ _ _ _).mpr ⟨n, Nat.le_of_succ_le_succ hn, ix2, iy2, d2, hit, hd2⟩

/-- The call `plan` returns `res` exactly when `generatePotentialMap` returns
and, after some number of passes within the fuel from the state of lines 83-89,
the test of line 90 fails in a state whose path is `res`. -/
theorem plan_done_iff (hypot : ℚ → ℚ → ℚ) (f : PotentialField) (sx sy gx gy : ℚ)
    (fuel : ℕ) (res : Path) :
    plan hypot f sx sy gx gy fuel = .done res ↔
      ∃ g, generatePotentialMap hypot f gx gy = some g ∧
        ∃ n, n ≤ fuel ∧ ∃ ix iy d,
          planIterate hypot g gx gy n (planStart hypot g sx sy gx gy)
              = some (ix, iy, d, res) ∧
            d < f.reso_ := by
  unfold plan
  cases hg : generatePotentialMap hypot f gx gy with
  | none =>
    constructor
    · intro h; cases h
    · rintro ⟨g, h, _⟩; cases h
  | some g =>
    have hr := generatePotentialMap_reso hypot f g gx gy hg
    simp only
    rw [planLoop_done_iff, hr]
    constructor
    · rintro ⟨n, hn, ix, iy, d, hit, hd⟩
      exact ⟨g, rfl, n, hn, ix, iy, d, hit, hd⟩
    · rintro ⟨g2, h2, n, hn, ix, iy, d, hit, hd⟩
      obtain rfl := Option.some.inj h2
      exact ⟨n, hn, ix, iy, d, hit, hd⟩

/-! ## The search inside the map -/

theorem storedPotential_mem (g : PotentialField) (ix iy : ℤ) (v : ℚ)
    (h : storedPotential g ix iy = some v) : ∃ row ∈ g.pmap_, v ∈ row := by
  unfold storedPotential at h
  cases hrow : g.pmap_[ix.toNat]? with
  | none => rw [hrow] at h; cases h
  | some row =>
    rw [hrow] at h
    exact ⟨row, List.getElem?_mem hrow, List.getElem?_mem h⟩

/-- The offsets of the eight-connected motion model keep the neighbours of a
cell between `-1` and the map dimensions within the type `int`. -/
theorem neighbours_isInt (g : PotentialField) (hxw : IsInt (xw g)) (hyw : IsInt (yw g))
    (hmot : IsEightConnected g.motion_model_) (ix iy : ℤ)
    (hix : -1 ≤ ix ∧ ix < xw g) (hiy : -1 ≤ iy ∧ iy < yw g) :
    ∀ m ∈ g.motion_model_, IsInt (ix + m.1) ∧ IsInt (iy + m.2) := by
  intro m hm
  obtain ⟨h1, h2, h3, h4, _⟩ := (hmot m.1 m.2).mp hm
  unfold IsInt at *
  omega

/-- One pass of the loop body from a cell inside a map with two cells along
some axis and every stored potential below the sentinel. -/
theorem planStep_inMap (hypot : ℚ → ℚ → ℚ) (g : PotentialField) (gx gy : ℚ)
    (hs : MapShaped g) (hxw : IsInt (xw g)) (hyw : IsInt (yw g))
    (hmot : IsEightConnected g.motion_model_)
    (hbelow : ∀ row ∈ g.pmap_, ∀ v ∈ row, v < FLT_MAX)
    (htwo : 2 ≤ xw g ∨ 2 ≤ yw g) (ix iy : ℤ) (hin : InMap g ix iy) (path : Path) :
    ∃ a b, planStep hypot g gx gy ix iy path
        = some (a, b, hypot (gx - gridToWorld g a g.minx_) (gy - gridToWorld g b g.miny_),
            path ++ [(gridToWorld g a g.minx_, gridToWorld g b g.miny_)]) ∧
      InMap g a b ∧ (a - ix, b - iy) ∈ g.motion_model_ := by
  have hnb := neighbours_isInt g hxw hyw hmot ix iy ⟨by unfold InMap at hin; omega, hin.2.1⟩
    ⟨by unfold InMap at hin; omega, hin.2.2.2⟩
  obtain ⟨p, a, b, hsearch, hcase⟩ := searchNeighbours_int g hs hxw hyw ix iy hnb
  rcases hcase with ⟨_, _, _, hall⟩ | ⟨pre, m, post, hsplit, rfl, rfl, hin2, _⟩
  · exfalso
    obtain ⟨m, hm, hmin⟩ : ∃ m, m ∈ g.motion_model_ ∧ InMap g (ix + m.1) (iy + m.2) := by
      unfold InMap at hin ⊢
      rcases htwo with h2 | h2
      · by_cases hc : ix + 1 < xw g
        · exact ⟨(1, 0), (hmot 1 0).mpr (by simp), by simp only; omega⟩
        · exact ⟨(-1, 0), (hmot (-1) 0).mpr (by simp), by simp only; omega⟩
      · by_cases hc : iy + 1 < yw g
        · exact ⟨(0, 1), (hmot 0 1).mpr (by simp), by simp only; omega⟩
        · exact ⟨(0, -1), (hmot 0 (-1)).mpr (by simp), by simp only; omega⟩
    rcases candidatePotential_int g hs hxw hyw _ _ (hnb m hm).1 (hnb m hm).2 with
      ⟨_, _, v, hv, _⟩ | ⟨hout, _⟩
    · obtain ⟨row, hrow, hvrow⟩ := storedPotential_mem g _ _ v hv
      exact absurd (hall m hm hmin v hv) (not_le.mpr (hbelow row hrow v hvrow))
    · exact hout hmin
  · refine ⟨ix + m.1, iy + m.2, ?_, hin2, ?_⟩
    · unfold planStep
      rw [hsearch]
    · have hmem : m ∈ g.motion_model_ := by rw [hsplit]; simp
      simpa using hmem

/-- Claim C20.  In-range invariant of the search.  If the generated map has at
least two cells along some axis, every stored potential is below the
out-of-range sentinel `FLT_MAX` and the start cell is inside the map (the motion
model being the eight-connected one and the map dimensions values of `int`),
then the cell `(ix, iy)` of the loop after any number `n` of passes is inside
the map, and the pass that follows moves to a cell `(ix2, iy2)` that is inside
the map and differs from `(ix, iy)` by an offset `(dx, dy)` with `dx`, `dy` in
`{-1, 0, 1}` and `(dx, dy) ≠ (0, 0)`, and appends exactly the waypoint
`(ix2 * resolution + minx, iy2 * resolution + miny)`. -/
theorem search_stays_in_map (hypot : ℚ → ℚ → ℚ) (f g : PotentialField)
    (sx sy gx gy : ℚ)
    (hg : generatePotentialMap hypot f gx gy = some g)
    (hint : IsInt (xw f) ∧ IsInt (yw f))
    (hmot : IsEightConnected f.motion_model_)
    (hbelow : ∀ row ∈ g.pmap_, ∀ v ∈ row, v < FLT_MAX)
    (htwo : 2 ≤ xw f ∨ 2 ≤ yw f)
    (hstart : InMap f (worldToGrid f sx f.minx_) (worldToGrid f sy f.miny_)) :
    ∀ n ix iy d path,
      planIterate hypot g gx gy n (planStart hypot g sx sy gx gy) = some (ix, iy, d, path) →
      InMap f ix iy ∧
      ∀ ix2 iy2 d2 path2,
        planIterate hypot g gx gy (n + 1) (planStart hypot g sx sy gx gy)
            = some (ix2, iy2, d2, path2) →
          InMap f ix2 iy2 ∧
          (-1 ≤ ix2 - ix ∧ ix2 - ix ≤ 1 ∧ -1 ≤ iy2 - iy ∧ iy2 - iy ≤ 1 ∧
            (ix2 - ix, iy2 - iy) ≠ (0, 0)) ∧
          path2 = path ++ [(ix2 * f.reso_ + f.minx_, iy2 * f.reso_ + f.miny_)] := by
  obtain ⟨hs, hx, hy, hr, hmx, hmy, hmm⟩ := generatePotentialMap_shaped hypot f g gx gy hg
  have hInMap : ∀ a b, InMap g a b ↔ InMap f a b := fun a b => by
    unfold InMap; rw [hx, hy]
  have hstep := planStep_inMap hypot g gx gy hs (hx ▸ hint.1) (hy ▸ hint.2) (hmm ▸ hmot)
    hbelow (by rw [hx, hy]; exact htwo)
  have hcell : ∀ n ix iy d path,
      planIterate hypot g gx gy n (planStart hypot g sx sy gx gy) = some (ix, iy, d, path) →
        InMap f ix iy := by
    intro n
    induction n with
    | zero =>
      intro ix iy d path h
      simp only [planIterate, planStart, Option.some.injEq, Prod.mk.injEq] at h
      obtain ⟨rfl, rfl, _, _⟩ := h
      unfold worldToGrid at hstart ⊢
      rw [hr, hmx, hmy]
      exact hstart
    | succ n ih =>
      intro ix iy d path h
      rw [planIterate] at h
      cases hprev : planIterate hypot g gx gy n (planStart hypot g sx sy gx gy) with
      | none => rw [hprev] at h; cases h
      | some s =>
        obtain ⟨ix0, iy0, d0, path0⟩ := s
        rw [hprev] at h
        simp only at h
        split_ifs at h
        obtain ⟨a, b, hab, hin, _⟩ := hstep ix0 iy0
          ((hInMap _ _).mpr (ih ix0 iy0 d0 path0 hprev)) path0
        rw [hab] at h
        simp only [Option.some.injEq, Prod.mk.injEq] at h
        obtain ⟨rfl, rfl, _, _⟩ := h
        exact (hInMap _ _).mp hin
  intro n ix iy d path h
  refine ⟨hcell n ix iy d path h, fun ix2 iy2 d2 path2 h2 => ?_⟩
  refine ⟨hcell (n + 1) ix2 iy2 d2 path2 h2, ?_⟩
  rw [planIterate, h] at h2
  simp only at h2
  split_ifs at h2
  obtain ⟨a, b, hab, _, hoff⟩ := hstep ix iy ((hInMap _ _).mpr (hcell n ix iy d path h)) path
  rw [hab] at h2
  simp only [Option.some.injEq, Prod.mk.injEq] at h2
  obtain ⟨rfl, rfl, _, rfl⟩ := h2
  have hoff2 := ((hmm ▸ hmot) (a - ix) (b - iy)).mp hoff
  refine ⟨hoff2, ?_⟩
  simp only [gridToWorld, hr, hmx, hmy]

/-! ## A loop without a cap -/

/-- The loop never ends while every cell that a pass can move to, a cell inside
the map or the cell `(-1, -1)` of the initial value of `minix` and `miniy`, is at
a distance of at least `reso_` from the goal. -/
theorem planLoop_outOfFuel_of_far (hypot : ℚ → ℚ → ℚ) (g : PotentialField)
    (gx gy : ℚ) (hs : MapShaped g) (hxw : IsInt (xw g)) (hyw : IsInt (yw g))
    (hmot : IsEightConnected g.motion_model_)
    (hfar : ∀ a b, InMap g a b ∨ (a = -1 ∧ b = -1) →
      g.reso_ ≤ hypot (gx - gridToWorld g a g.minx_) (gy - gridToWorld g b g.miny_))
    (fuel : ℕ) (ix iy : ℤ) (d : ℚ) (path : Path)
    (hnb : ∀ m ∈ g.motion_model_, IsInt (ix + m.1) ∧ IsInt (iy + m.2))
    (hd : g.reso_ ≤ d) :
    planLoop hypot g gx gy fuel ix iy d path = .outOfFuel := by
  induction fuel generalizing ix iy d path with
  | zero => rw [planLoop, if_pos hd]
  | succ n ih =>
    obtain ⟨p, a, b, hsearch, hcase⟩ := searchNeighbours_int g hs hxw hyw ix iy hnb
    have hreach : InMap g a b ∨ (a = -1 ∧ b = -1) := by
      rcases hcase with ⟨_, ha, hb, _⟩ | ⟨_, _, _, _, _, _, hin, _⟩
      · exact Or.inr ⟨ha, hb⟩
      · exact Or.inl hin
    have hnb2 : ∀ m ∈ g.motion_model_, IsInt (a + m.1) ∧ IsInt (b + m.2) := by
      apply neighbours_isInt g hxw hyw hmot
      · rcases hreach with hin | ⟨ha, _⟩
        · unfold InMap at hin; omega
        · unfold MapShaped at hs; omega
      · rcases hreach with hin | ⟨_, hb⟩
        · unfold InMap at hin; omega
        · unfold MapShaped at hs; omega
    rw [planLoop, if_pos hd, hsearch]
    exact ih a b _ _ hnb2 (hfar a b hreach)

/-- The run of `plan` for a goal that stays at least `reso_` away from the start
and from every cell that a pass can move to. -/
theorem plan_outOfFuel_of_far (hypot : ℚ → ℚ → ℚ) (f : PotentialField)
    (sx sy gx gy : ℚ)
    (hdim : (0 ≤ xw f ∧ IsInt (xw f)) ∧ (0 ≤ yw f ∧ IsInt (yw f)))
    (hmot : IsEightConnected f.motion_model_)
    (hstart : (IsInt (worldToGrid f sx f.minx_ - 1) ∧ IsInt (worldToGrid f sx f.minx_ + 1)) ∧
      (IsInt (worldToGrid f sy f.miny_ - 1) ∧ IsInt (worldToGrid f sy f.miny_ + 1)))
    (hfar0 : f.reso_ ≤ hypot (sx - gx) (sy - gy))
    (hfar : ∀ a b : ℤ, InMap f a b ∨ (a = -1 ∧ b = -1) →
      f.reso_ ≤ hypot (gx - (a * f.reso_ + f.minx_)) (gy - (b * f.reso_ + f.miny_))) :
    ∀ fuel, plan hypot f sx sy gx gy fuel = .outOfFuel := by
  intro fuel
  unfold plan
  cases hg : generatePotentialMap hypot f gx gy with
  | none =>
    exact absurd hg ((generatePotentialMap_ne_none hypot f gx gy).mpr ⟨hdim.1.1, hdim.2.1⟩)
  | some g =>
    obtain ⟨hs, hx, hy, hr, hmx, hmy, hmm⟩ := generatePotentialMap_shaped hypot f g gx gy hg
    simp only
    apply planLoop_outOfFuel_of_far hypot g gx gy hs (hx ▸ hdim.1.2) (hy ▸ hdim.2.2)
      (hmm ▸ hmot)
    · intro a b hab
      unfold gridToWorld
      rw [hr, hmx, hmy]
      apply hfar a b
      unfold InMap at hab ⊢
      rw [hx, hy] at hab
      exact hab
    · intro m hm
      rw [hmm] at hm
      obtain ⟨h1, h2, h3, h4, _⟩ := (hmot m.1 m.2).mp hm
      unfold worldToGrid at hstart ⊢
      rw [hr, hmx, hmy]
      unfold IsInt at *
      omega
    · rw [hr]; exact hfar0

/-- Claim C12, as amended.  The loop of `plan` has no iteration cap and `plan`
has no `PlanningStalled` outcome.  For every field with map dimensions in the
non-negative values of `int` and the eight-connected motion model, every start
whose cell has neighbour indices of the type `int` and every goal that is at
least `resolution` away from the start, from every cell of the map and from
the cell `(-1, -1)`, the loop is still running after any number of passes; and
for every start, goal and fuel a call that returns a path does so because, after
some number of passes, the test `d >= resolution` failed. -/
theorem plan_runs_forever (hypot : ℚ → ℚ → ℚ) (f : PotentialField)
    (sx sy gx gy : ℚ)
    (hdim : (0 ≤ xw f ∧ IsInt (xw f)) ∧ (0 ≤ yw f ∧ IsInt (yw f)))
    (hmot : IsEightConnected f.motion_model_)
    (hstart : (IsInt (worldToGrid f sx f.minx_ - 1) ∧ IsInt (worldToGrid f sx f.minx_ + 1)) ∧
      (IsInt (worldToGrid f sy f.miny_ - 1) ∧ IsInt (worldToGrid f sy f.miny_ + 1)))
    (hfar0 : f.reso_ ≤ hypot (sx - gx) (sy - gy))
    (hfar : ∀ a b : ℤ, InMap f a b ∨ (a = -1 ∧ b = -1) →
      f.reso_ ≤ hypot (gx - (a * f.reso_ + f.minx_)) (gy - (b * f.reso_ + f.miny_))) :
    (∀ fuel, plan hypot f sx sy gx gy fuel = .outOfFuel) ∧
    ∀ sx2 sy2 gx2 gy2 fuel path, plan hypot f sx2 sy2 gx2 gy2 fuel = .done path →
      ∃ g, generatePotentialMap hypot f gx2 gy2 = some g ∧
        ∃ n, n ≤ fuel ∧ ∃ ix iy d,
          planIterate hypot g gx2 gy2 n (planStart hypot g sx2 sy2 gx2 gy2)
              = some (ix, iy, d, path) ∧
            d < f.reso_ := by
  refine ⟨plan_outOfFuel_of_far hypot f sx sy gx gy hdim hmot hstart hfar0 hfar, ?_⟩
  intro sx2 sy2 gx2 gy2 fuel path h
  exact (plan_done_iff hypot f sx2 sy2 gx2 gy2 fuel path).mp h

theorem planLoop_ne_lengthError (hypot : ℚ → ℚ → ℚ) (g : PotentialField) (gx gy : ℚ)
    (fuel : ℕ) (ix iy : ℤ) (d : ℚ) (path : Path) :
    planLoop hypot g gx gy fuel ix iy d path ≠ .lengthError := by
  induction fuel generalizing ix iy d path with
  | zero =>
    unfold planLoop
    split_ifs <;> exact fun h => PlanResult.noConfusion h
  | succ n ih =>
    unfold planLoop
    split_ifs
    · cases searchNeighbours g ix iy with
      | none => exact fun h => PlanResult.noConfusion h
      | some r => exact ih _ _ _ _
    · exact fun h => PlanResult.noConfusion h

/-- The loop on a map of the shape of line 53 returns a path or is still running
when the fuel is spent. -/
theorem planLoop_done_or_outOfFuel (hypot : ℚ → ℚ → ℚ) (g : PotentialField)
    (hs : MapShaped g) (gx gy : ℚ) (fuel : ℕ) (ix iy : ℤ) (d : ℚ) (path : Path) :
    (∃ res, planLoop hypot g gx gy fuel ix iy d path = .done res) ∨
      planLoop hypot g gx gy fuel ix iy d path = .outOfFuel := by
  cases hres : planLoop hypot g gx gy fuel ix iy d path with
  | done res => exact Or.inl ⟨res, rfl⟩
  | lengthError => exact absurd hres (planLoop_ne_lengthError hypot g gx gy fuel _ _ _ _)
  | indexError => exact absurd hres (planLoop_ne_indexError hypot g hs gx gy fuel _ _ _ _)
  | outOfFuel => exact Or.inr rfl

/-- Claim C13, as amended.  The function `plan` compares no coordinate with the
bounding region and has no `OutOfBounds` outcome; a start or a goal outside the
region is treated as any other.  For every field with `resolution > 0` and map
dimensions in the non-negative values of `int`, and every start and goal, inside
the bounding region or not, the cell index of the start and those of its
neighbours being values of `int`: `generatePotentialMap` returns; if the start
is closer than `resolution` to the goal, `plan` returns the empty path; if not,
the first pass of the loop runs the neighbour search from the cell index of the
start, moves to a neighbour inside the map or, where the search finds none below
the sentinel, to the cell `(-1, -1)`, appends the waypoint of that cell, and the
loop goes on from there; whatever the fuel, `plan` returns a path or its loop is
still running, and it returns a path exactly when, after some number of passes,
the test `d >= resolution` fails. -/
theorem plan_checks_no_bounds (hypot : ℚ → ℚ → ℚ) (f : PotentialField)
    (sx sy gx gy : ℚ)
    (hdom : 0 < f.reso_ ∧ (0 ≤ xw f ∧ IsInt (xw f)) ∧ (0 ≤ yw f ∧ IsInt (yw f)))
    (hstart : (IsInt (worldToGrid f sx f.minx_) ∧ IsInt (worldToGrid f sy f.miny_)) ∧
      ∀ m ∈ f.motion_model_,
        IsInt (worldToGrid f sx f.minx_ + m.1) ∧ IsInt (worldToGrid f sy f.miny_ + m.2)) :
    ∃ g, generatePotentialMap hypot f gx gy = some g ∧
      (hypot (sx - gx) (sy - gy) < f.reso_ →
        ∀ fuel, plan hypot f sx sy gx gy fuel = .done []) ∧
      (f.reso_ ≤ hypot (sx - gx) (sy - gy) →
        ∃ p a b,
          searchNeighbours g (worldToGrid f sx f.minx_) (worldToGrid f sy f.miny_)
            = some (p, a, b) ∧
          (InMap f a b ∨ (a = -1 ∧ b = -1)) ∧
          ∀ fuel, plan hypot f sx sy gx gy (fuel + 1) =
            planLoop hypot g gx gy fuel a b
              (hypot (gx - (a * f.reso_ + f.minx_)) (gy - (b * f.reso_ + f.miny_)))
              [(a * f.reso_ + f.minx_, b * f.reso_ + f.miny_)]) ∧
      (∀ fuel, (∃ path, plan hypot f sx sy gx gy fuel = .done path) ∨
        plan hypot f sx sy gx gy fuel = .outOfFuel) ∧
      ∀ fuel res, plan hypot f sx sy gx gy fuel = .done res ↔
        ∃ n, n ≤ fuel ∧ ∃ ix iy d,
          planIterate hypot g gx gy n (planStart hypot g sx sy gx gy)
              = some (ix, iy, d, res) ∧
            d < f.reso_ := by
  obtain ⟨_, hdx, hdy⟩ := hdom
  cases hg : generatePotentialMap hypot f gx gy with
  | none =>
    exact absurd hg ((generatePotentialMap_ne_none hypot f gx gy).mpr ⟨hdx.1, hdy.1⟩)
  | some g =>
    obtain ⟨hs, hx, hy, hr, hmx, hmy, hmm⟩ := generatePotentialMap_shaped hypot f g gx gy hg
    have hwx : worldToGrid g sx g.minx_ = worldToGrid f sx f.minx_ := by
      unfold worldToGrid
      rw [hr, hmx]
    have hwy : worldToGrid g sy g.miny_ = worldToGrid f sy f.miny_ := by
      unfold worldToGrid
      rw [hr, hmy]
    have hplan : ∀ fuel, plan hypot f sx sy gx gy fuel =
        planLoop hypot g gx gy fuel (worldToGrid f sx f.minx_) (worldToGrid f sy f.miny_)
          (hypot (sx - gx) (sy - gy)) [] := by
      intro fuel
      unfold plan
      rw [hg]
      simp only
      rw [hwx, hwy]
    refine ⟨g, rfl, ?_, ?_, ?_, ?_⟩
    · intro hd fuel
      rw [hplan]
      exact planLoop_of_lt hypot g gx gy fuel _ _ _ _ (hr ▸ hd)
    · intro hd
      obtain ⟨p, a, b, hsearch, hcase⟩ := searchNeighbours_int g hs (hx ▸ hdx.2)
        (hy ▸ hdy.2) (worldToGrid f sx f.minx_) (worldToGrid f sy f.miny_)
        (fun m hm => hstart.2 m (hmm ▸ hm))
      refine ⟨p, a, b, hsearch, ?_, ?_⟩
      · rcases hcase with ⟨_, ha, hb, _⟩ | ⟨_, _, _, _, _, _, hin, _⟩
        · exact Or.inr ⟨ha, hb⟩
        · left
          unfold InMap at hin ⊢
          rw [hx, hy] at hin
          exact hin
      · intro fuel
        rw [hplan, planLoop, if_pos (hr ▸ hd), hsearch]
        simp only [gridToWorld, hr, hmx, hmy, List.nil_append]
    · intro fuel
      rw [hplan]
      exact planLoop_done_or_outOfFuel hypot g hs gx gy fuel _ _ _ _
    · intro fuel res
      rw [hplan, planLoop_done_iff, hr]
      unfold planStart
      rw [hwx, hwy]

/-! ## The constructor -/

theorem minElement_eq_none_iff (l : List ℚ) : minElement l = none ↔ l = [] := by
  cases l <;> simp [minElement]

theorem maxElement_eq_none_iff (l : List ℚ) : maxElement l = none ↔ l = [] := by
  cases l <;> simp [maxElement]

theorem foldl_max_ge (l : List ℚ) (a : ℚ) :
    a ≤ l.foldl max a ∧ ∀ b ∈ l, b ≤ l.foldl max a := by
  induction l generalizing a with
  | nil => simp
  | cons c l ih =>
    simp only [List.foldl_cons, List.mem_cons, forall_eq_or_imp]
    exact ⟨(le_max_left _ _).trans (ih _).1, (le_max_right _ _).trans (ih _).1,
      fun b hb => (ih _).2 b hb⟩

theorem foldl_max_mem (l : List ℚ) (a : ℚ) :
    l.foldl max a = a ∨ l.foldl max a ∈ l := by
  induction l generalizing a with
  | nil => simp
  | cons c l ih =>
    simp only [List.foldl_cons, List.mem_cons]
    rcases ih (max a c) with h | h
    · rcases max_choice a c with h2 | h2
      · left; rw [h, h2]
      · right; left; rw [h, h2]
    · right; right; exact h

/-- The value of `*std::min_element` is an element and a lower bound. -/
theorem minElement_spec (l : List ℚ) (m : ℚ) (h : minElement l = some m) :
    m ∈ l ∧ ∀ a ∈ l, m ≤ a := by
  cases l with
  | nil => cases h
  | cons c l =>
    obtain rfl := Option.some.inj h
    constructor
    · rcases foldl_min_mem l c with h2 | h2
      · rw [h2]; exact List.mem_cons_self _ _
      · exact List.mem_cons_of_mem _ h2
    · intro a ha
      rcases List.mem_cons.mp ha with rfl | ha
      · exact (foldl_min_le l a).1
      · exact (foldl_min_le l c).2 a ha

/-- The value of `*std::max_element` is an element and an upper bound. -/
theorem maxElement_spec (l : List ℚ) (m : ℚ) (h : maxElement l = some m) :
    m ∈ l ∧ ∀ a ∈ l, a ≤ m := by
  cases l with
  | nil => cases h
  | cons c l =>
    obtain rfl := Option.some.inj h
    constructor
    · rcases foldl_max_mem l c with h2 | h2
      · rw [h2]; exact List.mem_cons_self _ _
      · exact List.mem_cons_of_mem _ h2
    · intro a ha
      rcases List.mem_cons.mp ha with rfl | ha
      · exact (foldl_max_ge l a).1
      · exact (foldl_max_ge l c).2 a ha

theorem construct_eq_some (motion : List (ℤ × ℤ)) (ox oy : List ℚ)
    (reso robot_radius kp eta area_width : ℚ) (hox : ox ≠ []) (hoy : oy ≠ []) :
    ∃ mnx mny mxx mxy, minElement ox = some mnx ∧ minElement oy = some mny ∧
      maxElement ox = some mxx ∧ maxElement oy = some mxy ∧
      construct motion ox oy reso robot_radius kp eta area_width = some
        { ox_ := ox, oy_ := oy, reso_ := reso, rr_ := robot_radius, kp_ := kp,
          eta_ := eta, area_width_ := area_width,
          minx_ := mnx - area_width / 2, miny_ := mny - area_width / 2,
          maxx_ := mxx + area_width / 2, maxy_ := mxy + area_width / 2,
          motion_model_ := motion, pmap_ := [] } := by
  obtain ⟨mnx, h1⟩ := Option.ne_none_iff_exists'.mp (mt (minElement_eq_none_iff ox).mp hox)
  obtain ⟨mny, h2⟩ := Option.ne_none_iff_exists'.mp (mt (minElement_eq_none_iff oy).mp hoy)
  obtain ⟨mxx, h3⟩ := Option.ne_none_iff_exists'.mp (mt (maxElement_eq_none_iff ox).mp hox)
  obtain ⟨mxy, h4⟩ := Option.ne_none_iff_exists'.mp (mt (maxElement_eq_none_iff oy).mp hoy)
  exact ⟨mnx, mny, mxx, mxy, h1, h2, h3, h4, by simp only [construct, h1, h2, h3, h4]⟩

/-- Claim C15, as amended.  Constructing a `PotentialField` yields an object,
which stores the two sequences as they are, exactly when both obstacle
sequences are non-empty: their lengths are not compared and there is no
`InvalidInput` failure.  On an empty sequence the constructor dereferences
`end()`, and there is no object. -/
theorem construct_succeeds_iff (motion : List (ℤ × ℤ)) (ox oy : List ℚ)
    (reso robot_radius kp eta area_width : ℚ) :
    (∃ f, construct motion ox oy reso robot_radius kp eta area_width = some f ∧
      f.ox_ = ox ∧ f.oy_ = oy) ↔ (ox ≠ [] ∧ oy ≠ []) := by
  constructor
  · rintro ⟨f, hf, _⟩
    constructor
    · rintro rfl
      simp [construct, minElement] at hf
    · rintro rfl
      cases hm : minElement ox <;> simp [construct, minElement, hm] at hf
  · rintro ⟨hox, hoy⟩
    obtain ⟨mnx, mny, mxx, mxy, _, _, _, _, hc⟩ :=
      construct_eq_some motion ox oy reso robot_radius kp eta area_width hox hoy
    exact ⟨_, hc, rfl, rfl⟩

/-- Claim C15 as stated fails on sequences of different lengths.  The
constructor called with two abscissas and one ordinate builds the object
`mismatchedField`, whose `ox_` has two entries and whose `oy_` has one. -/
theorem construct_accepts_mismatched_lengths :
    construct motionModel8 [0, 1] [0] 1 (1 / 2) 1 1 2 = some mismatchedField ∧
    mismatchedField.ox_.length = 2 ∧ mismatchedField.oy_.length = 1 := by
  refine ⟨?_, rfl, rfl⟩
  simp [construct, minElement, maxElement, mismatchedField]
  norm_num

theorem constructRounded_eq_some (rnd : ℚ → ℚ) (motion : List (ℤ × ℤ)) (ox oy : List ℚ)
    (reso robot_radius kp eta area_width : ℚ) (hox : ox ≠ []) (hoy : oy ≠ []) :
    ∃ mnx mny mxx mxy, minElement ox = some mnx ∧ minElement oy = some mny ∧
      maxElement ox = some mxx ∧ maxElement oy = some mxy ∧
      constructRounded rnd motion ox oy reso robot_radius kp eta area_width = some
        { ox_ := ox, oy_ := oy, reso_ := reso, rr_ := robot_radius, kp_ := kp,
          eta_ := eta, area_width_ := area_width,
          minx_ := rnd (mnx - rnd (area_width / 2)),
          miny_ := rnd (mny - rnd (area_width / 2)),
          maxx_ := rnd (mxx + rnd (area_width / 2)),
          maxy_ := rnd (mxy + rnd (area_width / 2)),
          motion_model_ := motion, pmap_ := [] } := by
  obtain ⟨mnx, h1⟩ := Option.ne_none_iff_exists'.mp (mt (minElement_eq_none_iff ox).mp hox)
  obtain ⟨mny, h2⟩ := Option.ne_none_iff_exists'.mp (mt (minElement_eq_none_iff oy).mp hoy)
  obtain ⟨mxx, h3⟩ := Option.ne_none_iff_exists'.mp (mt (maxElement_eq_none_iff ox).mp hox)
  obtain ⟨mxy, h4⟩ := Option.ne_none_iff_exists'.mp (mt (maxElement_eq_none_iff oy).mp hoy)
  exact ⟨mnx, mny, mxx, mxy, h1, h2, h3, h4, by simp only [constructRounded, h1, h2, h3, h4]⟩

/-- In exact arithmetic the constructor is `construct`. -/
theorem constructRounded_id (motion : List (ℤ × ℤ)) (ox oy : List ℚ)
    (reso robot_radius kp eta area_width : ℚ) :
    constructRounded id motion ox oy reso robot_radius kp eta area_width
      = construct motion ox oy reso robot_radius kp eta area_width :=
  rfl

/-- A monotone rounding that leaves `0` as it is keeps a lower bound, lowered by
half of a non-negative margin, below an upper bound raised by it. -/
theorem rounded_bounds_le (rnd : ℚ → ℚ) (hmono : ∀ a b, a ≤ b → rnd a ≤ rnd b)
    (h0 : rnd 0 = 0) (lo hi w : ℚ) (h : lo ≤ hi) (hw : 0 ≤ w) :
    rnd (lo - rnd (w / 2)) ≤ rnd (hi + rnd (w / 2)) := by
  have h1 : 0 ≤ rnd (w / 2) := h0 ▸ hmono 0 _ (by linarith)
  exact hmono _ _ (by linarith)

/-- Claim C16, as amended.  For every non-empty obstacle set and every
`PlanningConfig` the constructor yields an object whose bounds are the `float`
results `minx = min(ox) - margin/2`, `maxx = max(ox) + margin/2`,
`miny = min(oy) - margin/2` and `maxy = max(oy) + margin/2`, each operation
followed by its rounding `rnd`, the minimum and the maximum being an element of
the sequence that bounds all of them.  The bounds satisfy `maxx ≥ minx` and
`maxy ≥ miny` whenever the margin is not negative, the rounding being monotone
and leaving `0` as it is; they satisfy `maxx > minx` and `maxy > miny` whenever
the margin is positive and the rounding leaves the half margin and the four
bounds as they are, as it does in exact arithmetic. -/
theorem construct_bounds (rnd : ℚ → ℚ) (motion : List (ℤ × ℤ)) (ox oy : List ℚ)
    (reso robot_radius kp eta area_width : ℚ) (hne : ox ≠ [] ∧ oy ≠ []) :
    ∃ f mnx mxx mny mxy,
      constructRounded rnd motion ox oy reso robot_radius kp eta area_width = some f ∧
      (mnx ∈ ox ∧ ∀ a ∈ ox, mnx ≤ a) ∧ (mxx ∈ ox ∧ ∀ a ∈ ox, a ≤ mxx) ∧
      (mny ∈ oy ∧ ∀ a ∈ oy, mny ≤ a) ∧ (mxy ∈ oy ∧ ∀ a ∈ oy, a ≤ mxy) ∧
      f.minx_ = rnd (mnx - rnd (area_width / 2)) ∧
      f.maxx_ = rnd (mxx + rnd (area_width / 2)) ∧
      f.miny_ = rnd (mny - rnd (area_width / 2)) ∧
      f.maxy_ = rnd (mxy + rnd (area_width / 2)) ∧
      ((∀ a b, a ≤ b → rnd a ≤ rnd b) → rnd 0 = 0 → 0 ≤ area_width →
        f.minx_ ≤ f.maxx_ ∧ f.miny_ ≤ f.maxy_) ∧
      (0 < area_width → rnd (area_width / 2) = area_width / 2 →
        (rnd (mnx - area_width / 2) = mnx - area_width / 2 ∧
          rnd (mxx + area_width / 2) = mxx + area_width / 2) →
        (rnd (mny - area_width / 2) = mny - area_width / 2 ∧
          rnd (mxy + area_width / 2) = mxy + area_width / 2) →
        f.minx_ < f.maxx_ ∧ f.miny_ < f.maxy_) := by
  obtain ⟨mnx, mny, mxx, mxy, h1, h2, h3, h4, hc⟩ :=
    constructRounded_eq_some rnd motion ox oy reso robot_radius kp eta area_width hne.1 hne.2
  have s1 := minElement_spec ox mnx h1
  have s2 := minElement_spec oy mny h2
  have s3 := maxElement_spec ox mxx h3
  have s4 := maxElement_spec oy mxy h4
  have hx : mnx ≤ mxx := s3.2 mnx s1.1
  have hy : mny ≤ mxy := s4.2 mny s2.1
  refine ⟨_, mnx, mxx, mny, mxy, hc, s1, s3, s2, s4, rfl, rfl, rfl, rfl, ?_, ?_⟩
  · intro hmono h0 hw
    exact ⟨rounded_bounds_le rnd hmono h0 mnx mxx area_width hx hw,
      rounded_bounds_le rnd hmono h0 mny mxy area_width hy hw⟩
  · intro hpos hhalf hex hey
    simp only
    rw [hhalf, hex.1, hex.2, hey.1, hey.2]
    constructor <;> linarith

theorem construct_bounds_witness :
    (([0] : List ℚ) ≠ [] ∧ ([0] : List ℚ) ≠ []) ∧
    ((∀ a b, a ≤ b → roundF32 a ≤ roundF32 b) ∧ roundF32 0 = 0) ∧
    roundF32 (1 / 2) = 1 / 2 ∧
    (roundF32 (0 - 1 / 2) = 0 - 1 / 2 ∧ roundF32 (0 + 1 / 2) = 0 + 1 / 2) ∧
    ∃ f, constructRounded roundF32 motionModel8 [0] [0] 1 (1 / 2) 1 1 1 = some f ∧
      f.minx_ = roundF32 (0 - roundF32 (1 / 2)) ∧
      f.maxx_ = roundF32 (0 + roundF32 (1 / 2)) ∧
      f.miny_ = roundF32 (0 - roundF32 (1 / 2)) ∧
      f.maxy_ = roundF32 (0 + roundF32 (1 / 2)) ∧
      (f.minx_ ≤ f.maxx_ ∧ f.miny_ ≤ f.maxy_) ∧
      (f.minx_ < f.maxx_ ∧ f.miny_ < f.maxy_) :=
  have h : ([0] : List ℚ) ≠ [] ∧ ([0] : List ℚ) ≠ [] := ⟨by simp, by simp⟩
  have hsub : roundF32 (0 - 1 / 2) = 0 - 1 / 2 := by
    rw [roundF32_neg_half]; norm_num
  have hadd : roundF32 (0 + 1 / 2) = 0 + 1 / 2 := by
    rw [roundF32_zero_add_half]; norm_num
  ⟨h, ⟨roundF32_mono, roundF32_zero⟩, roundF32_half, ⟨hsub, hadd⟩,
    (construct_bounds roundF32 motionModel8 [0] [0] 1 (1 / 2) 1 1 1 h).elim
      fun f hf => hf.elim fun mnx hf => hf.elim fun mxx hf => hf.elim fun mny hf =>
        hf.elim fun mxy hf =>
          have e1 : mnx = 0 := List.mem_singleton.mp hf.2.1.1
          have e2 : mxx = 0 := List.mem_singleton.mp hf.2.2.1.1
          have e3 : mny = 0 := List.mem_singleton.mp hf.2.2.2.1.1
          have e4 : mxy = 0 := List.mem_singleton.mp hf.2.2.2.2.1.1
          ⟨f, hf.1, e1 ▸ hf.2.2.2.2.2.1, e2 ▸ hf.2.2.2.2.2.2.1,
            e3 ▸ hf.2.2.2.2.2.2.2.1, e4 ▸ hf.2.2.2.2.2.2.2.2.1,
            hf.2.2.2.2.2.2.2.2.2.1 roundF32_mono roundF32_zero (by norm_num),
            hf.2.2.2.2.2.2.2.2.2.2 (by norm_num) roundF32_half
              ⟨e1 ▸ hsub, e2 ▸ hadd⟩ ⟨e3 ▸ hsub, e4 ▸ hadd⟩⟩⟩

/-- In `float` arithmetic the bounds can coincide for a positive margin.  The
constructor called with one obstacle at `(2^27 - 8, 0)` and `area_width = 1`
computes `134217720.0f - 0.5f` and `134217720.0f + 0.5f`, which both round to
`134217720.0f`, the neighbouring floats being 8 away: it builds the object
`absorbedField` with `minx = maxx`. -/
theorem constructRounded_absorbs_margin :
    constructRounded roundF32 motionModel8 [134217720] [0] 1 (1 / 2) 1 1 1
      = some absorbedField := by
  simp only [constructRounded, minElement, maxElement, List.foldl_nil, absorbedField,
    smallField]
  rw [roundF32_half, roundF32_far_sub_half, roundF32_far_add_half, roundF32_neg_half,
    roundF32_zero_add_half]

/-- Claim C16 as stated fails for the margin `0`, and in `float` arithmetic for
a margin that the rounding absorbs.  The constructor called with one obstacle at
the origin and `area_width = 0` builds the object `flatField` with
`minx = maxx = 0` and `miny = maxy = 0`: neither `maxx > minx` nor `maxy > miny`
holds.  Called with one obstacle at `(2^27 - 8, 0)` and `area_width = 1 > 0` it
builds, the subtraction and the addition of `0.5f` rounding to `134217720.0f`,
the object `absorbedField` with `minx = maxx = 2^27 - 8`. -/
theorem construct_bounds_not_strict :
    construct motionModel8 [0] [0] 1 (1 / 2) 1 1 0 = some flatField ∧
    ¬ (flatField.minx_ < flatField.maxx_) ∧ ¬ (flatField.miny_ < flatField.maxy_) ∧
    constructRounded roundF32 motionModel8 [134217720] [0] 1 (1 / 2) 1 1 1
      = some absorbedField ∧
    (0 : ℚ) < absorbedField.area_width_ ∧
    ¬ (absorbedField.minx_ < absorbedField.maxx_) := by
  refine ⟨?_, by norm_num [flatField], by norm_num [flatField],
    constructRounded_absorbs_margin, by norm_num [absorbedField, smallField],
    by norm_num [absorbedField, smallField]⟩
  simp [construct, minElement, maxElement, flatField, smallField]

/-! ## The search on the concrete fields -/

theorem isEightConnected_motionModel8 : IsEightConnected motionModel8 := by
  intro dx dy
  simp only [motionModel8, List.mem_cons, Prod.mk.injEq, List.mem_singleton, ne_eq,
    List.mem_nil_iff, or_false]
  omega

theorem isInt_two : IsInt 2 := by unfold IsInt; omega

theorem isInt_one : IsInt 1 := by unfold IsInt; omega

theorem neighbours_isInt_motionModel8 (ix iy : ℤ) (hix : -2 ≤ ix ∧ ix ≤ 2)
    (hiy : -2 ≤ iy ∧ iy ≤ 2) :
    ∀ m ∈ motionModel8, IsInt (ix + m.1) ∧ IsInt (iy + m.2) := by
  intro m hm
  obtain ⟨h1, h2, h3, h4, _⟩ := (isEightConnected_motionModel8 m.1 m.2).mp hm
  unfold IsInt
  omega

theorem searchNeighbours_smallFieldMapped_outside :
    searchNeighbours smallFieldMapped (-1) 0 = some (1 / 2, 0, 0) := by
  norm_num [searchNeighbours, searchUpdate, candidatePotential, smallFieldMapped, smallField,
    motionModel8, toSizeT, FLT_MAX]

/-- The run of `plan` on `smallField` from the start `(-2, -1)`, left of the
bounding region `[-1, 1] × [-1, 1]`, to the goal `(0, -1)`. -/
theorem plan_smallField_from_outside :
    plan hypotQ smallField (-2) (-1) 0 (-1) 5 = .done [(-1, -1), (0, -1)] := by
  unfold plan
  rw [generatePotentialMap_smallField]
  simp only
  have h1 : hypotQ (-2 - 0) (-1 - -1) = 2 := by norm_num [hypotQ, Rat.sqrt]
  have h2 : worldToGrid smallFieldMapped (-2) smallFieldMapped.minx_ = -1 := by
    have e : ((-2 : ℚ) - smallFieldMapped.minx_) / smallFieldMapped.reso_ = ((-1 : ℤ) : ℚ) := by
      norm_num [smallFieldMapped, smallField]
    rw [worldToGrid, e, cppRound_intCast]
  have h3 : worldToGrid smallFieldMapped (-1) smallFieldMapped.miny_ = 0 := by
    have e : ((-1 : ℚ) - smallFieldMapped.miny_) / smallFieldMapped.reso_ = ((0 : ℤ) : ℚ) := by
      norm_num [smallFieldMapped, smallField]
    rw [worldToGrid, e, cppRound_intCast]
  rw [h1, h2, h3]
  unfold planLoop
  rw [if_pos (by norm_num [smallFieldMapped, smallField]),
    searchNeighbours_smallFieldMapped_outside]
  simp only
  have h4 : hypotQ (0 - gridToWorld smallFieldMapped 0 smallFieldMapped.minx_)
      (-1 - gridToWorld smallFieldMapped 0 smallFieldMapped.miny_) = 1 := by
    norm_num [gridToWorld, smallFieldMapped, smallField, hypotQ, Rat.sqrt]
  rw [h4]
  unfold planLoop
  rw [if_pos (by norm_num [smallFieldMapped, smallField]), searchNeighbours_smallFieldMapped]
  simp only
  have h5 : hypotQ (0 - gridToWorld smallFieldMapped 1 smallFieldMapped.minx_)
      (-1 - gridToWorld smallFieldMapped 0 smallFieldMapped.miny_) = 0 := by
    norm_num [gridToWorld, smallFieldMapped, smallField, hypotQ]
  rw [h5, planLoop_of_lt _ _ _ _ _ _ _ _ _ (by norm_num [smallFieldMapped, smallField])]
  norm_num [gridToWorld, smallFieldMapped, smallField]

theorem range_one : List.range 1 = [0] := by decide

theorem unitField_xw : xw unitField = 1 := by
  have e : (unitField.maxx_ - unitField.minx_) / unitField.reso_ = ((1 : ℤ) : ℚ) := by
    norm_num [unitField, smallField]
  rw [xw, e, cppRound_intCast]

theorem unitField_yw : yw unitField = 1 := by
  have e : (unitField.maxy_ - unitField.miny_) / unitField.reso_ = ((1 : ℤ) : ℚ) := by
    norm_num [unitField, smallField]
  rw [yw, e, cppRound_intCast]

theorem construct_unitField :
    construct motionModel8 [0] [0] 1 (1 / 2) 1 1 1 = some unitField := by
  simp [construct, minElement, maxElement, unitField, smallField]
  norm_num

theorem generatePotentialMap_unitField :
    generatePotentialMap hypotQ unitField (-3 / 2) (-3 / 2) = some unitFieldMapped := by
  rw [generatePotentialMap_eq hypotQ unitField _ _ (by rw [unitField_xw]; decide)
    (by rw [unitField_yw]; decide), unitField_xw, unitField_yw]
  have h1 : (1 : ℤ).toNat = 1 := rfl
  rw [h1, range_one]
  norm_num [cellPotential, gridToWorld,
    calculateAttractivePotential, calculateRepulsivePotential, closestObstacleDistance,
    clampDq, hypotQ, Rat.sqrt, FLT_MAX, unitField, unitFieldMapped, smallField]

theorem searchNeighbours_unitFieldMapped :
    searchNeighbours unitFieldMapped 0 0 = some (FLT_MAX, -1, -1) := by
  norm_num [searchNeighbours, searchUpdate, candidatePotential, unitFieldMapped, unitField,
    smallField, motionModel8, toSizeT]

/-- The run of `plan` on `unitField` from the start `(-1/2, -1/2)`, the only
cell of the map, to the goal `(-3/2, -3/2)`. -/
theorem plan_unitField :
    plan hypotQ unitField (-1 / 2) (-1 / 2) (-3 / 2) (-3 / 2) 5 = .done [(-3 / 2, -3 / 2)] := by
  unfold plan
  rw [generatePotentialMap_unitField]
  simp only
  have h1 : hypotQ (-1 / 2 - -3 / 2) (-1 / 2 - -3 / 2) = 1 := by norm_num [hypotQ, Rat.sqrt]
  have h2 : worldToGrid unitFieldMapped (-1 / 2) unitFieldMapped.minx_ = 0 := by
    have e : ((-1 / 2 : ℚ) - unitFieldMapped.minx_) / unitFieldMapped.reso_ = ((0 : ℤ) : ℚ) := by
      norm_num [unitFieldMapped, unitField, smallField]
    rw [worldToGrid, e, cppRound_intCast]
  have h3 : worldToGrid unitFieldMapped (-1 / 2) unitFieldMapped.miny_ = 0 := by
    have e : ((-1 / 2 : ℚ) - unitFieldMapped.miny_) / unitFieldMapped.reso_ = ((0 : ℤ) : ℚ) := by
      norm_num [unitFieldMapped, unitField, smallField]
    rw [worldToGrid, e, cppRound_intCast]
  rw [h1, h2, h3]
  unfold planLoop
  rw [if_pos (by norm_num [unitFieldMapped, unitField, smallField]),
    searchNeighbours_unitFieldMapped]
  simp only
  have h4 : hypotQ (-3 / 2 - gridToWorld unitFieldMapped (-1) unitFieldMapped.minx_)
      (-3 / 2 - gridToWorld unitFieldMapped (-1) unitFieldMapped.miny_) = 0 := by
    norm_num [gridToWorld, unitFieldMapped, unitField, smallField, hypotQ]
  rw [h4, planLoop_of_lt _ _ _ _ _ _ _ _ _ (by norm_num [unitFieldMapped, unitField, smallField])]
  norm_num [gridToWorld, unitFieldMapped, unitField, smallField]

theorem construct_steepField :
    construct motionModel8 [0] [0] 1 (1 / 2) FLT_MAX 1 2 = some steepField := by
  simp [construct, minElement, maxElement, steepField, smallField]

theorem steepField_xw : xw steepField = 2 := smallField_xw

theorem steepField_yw : yw steepField = 2 := smallField_yw

theorem generatePotentialMap_steepField :
    generatePotentialMap hypotQ steepField 3 3 = some steepFieldMapped := by
  rw [generatePotentialMap_eq hypotQ steepField 3 3 (by rw [steepField_xw]; decide)
    (by rw [steepField_yw]; decide), steepField_xw, steepField_yw]
  have h2 : (2 : ℤ).toNat = 2 := rfl
  rw [h2, range_two]
  norm_num [cellPotential, gridToWorld,
    calculateAttractivePotential, calculateRepulsivePotential, closestObstacleDistance,
    clampDq, hypotQ, Rat.sqrt, FLT_MAX, steepField, steepFieldMapped, smallField]

theorem searchNeighbours_steepFieldMapped :
    searchNeighbours steepFieldMapped 0 0 = some (FLT_MAX, -1, -1) := by
  norm_num [searchNeighbours, searchUpdate, candidatePotential, steepFieldMapped, steepField,
    smallField, motionModel8, toSizeT, FLT_MAX]

/-! ## Instances of the theorems on the search -/

theorem smallFieldMapped_xw : xw smallFieldMapped = 2 := smallField_xw

theorem smallFieldMapped_yw : yw smallFieldMapped = 2 := smallField_yw

theorem unitFieldMapped_xw : xw unitFieldMapped = 1 := unitField_xw

theorem unitFieldMapped_yw : yw unitFieldMapped = 1 := unitField_yw

theorem isInt_smallField : IsInt (xw smallField) ∧ IsInt (yw smallField) := by
  rw [smallField_xw, smallField_yw]
  exact ⟨isInt_two, isInt_two⟩

theorem isInt_unitField : IsInt (xw unitField) ∧ IsInt (yw unitField) := by
  rw [unitField_xw, unitField_yw]
  exact ⟨isInt_one, isInt_one⟩

theorem search_step_chooses_first_minimum_witness :
    generatePotentialMap hypotQ smallField 0 (-1) = some smallFieldMapped ∧
    (IsInt (xw smallField) ∧ IsInt (yw smallField)) ∧
    (∀ m ∈ smallFieldMapped.motion_model_, IsInt (0 + m.1) ∧ IsInt (0 + m.2)) ∧
    (∃ m ∈ smallFieldMapped.motion_model_, InMap smallFieldMapped (0 + m.1) (0 + m.2) ∧
      ∃ v, storedPotential smallFieldMapped (0 + m.1) (0 + m.2) = some v ∧ v < FLT_MAX) ∧
    ∃ p pre m post, smallFieldMapped.motion_model_ = pre ++ m :: post ∧
      searchNeighbours smallFieldMapped 0 0 = some (p, 0 + m.1, 0 + m.2) ∧
      (∃ d path2, planStep hypotQ smallFieldMapped 0 (-1) 0 0 []
        = some (0 + m.1, 0 + m.2, d, path2)) ∧
      InMap smallFieldMapped (0 + m.1) (0 + m.2) ∧
      storedPotential smallFieldMapped (0 + m.1) (0 + m.2) = some p ∧
      (∀ x ∈ smallFieldMapped.motion_model_, InMap smallFieldMapped (0 + x.1) (0 + x.2) →
        ∀ v, storedPotential smallFieldMapped (0 + x.1) (0 + x.2) = some v → p ≤ v) ∧
      (∀ x ∈ pre, InMap smallFieldMapped (0 + x.1) (0 + x.2) →
        ∀ v, storedPotential smallFieldMapped (0 + x.1) (0 + x.2) = some v → p < v) :=
  have hnb : ∀ m ∈ smallFieldMapped.motion_model_, IsInt (0 + m.1) ∧ IsInt (0 + m.2) :=
    neighbours_isInt_motionModel8 0 0 (by omega) (by omega)
  have hsome : ∃ m ∈ smallFieldMapped.motion_model_,
      InMap smallFieldMapped (0 + m.1) (0 + m.2) ∧
      ∃ v, storedPotential smallFieldMapped (0 + m.1) (0 + m.2) = some v ∧ v < FLT_MAX := by
    refine ⟨(1, 0), by simp [smallFieldMapped, smallField, motionModel8], ?_, 0, ?_, FLT_MAX_pos⟩
    · unfold InMap
      rw [smallFieldMapped_xw, smallFieldMapped_yw]
      omega
    · simp [storedPotential, smallFieldMapped]
  ⟨generatePotentialMap_smallField, isInt_smallField, hnb, hsome,
    search_step_chooses_first_minimum hypotQ smallField smallFieldMapped 0 (-1) 0 0 []
      generatePotentialMap_smallField isInt_smallField hnb hsome⟩

/-- Claim C11 as stated fails where no stored potential is below the sentinel.
The field `steepField` is the one the constructor builds with `kp = FLT_MAX`;
for the goal `(3, 3)` every cell of its map of two by two cells stores a
potential of at least `2 * FLT_MAX` (an infinity in `float` arithmetic).  In the
search step from the cell `(0, 0)` the neighbour at the offset `(1, 0)` is inside
the map, yet the test `min_p > p` of line 104 never holds: the cell moved to is
`(-1, -1)`, which is neither a neighbour nor inside the map. -/
theorem search_step_all_at_sentinel :
    construct motionModel8 [0] [0] 1 (1 / 2) FLT_MAX 1 2 = some steepField ∧
    generatePotentialMap hypotQ steepField 3 3 = some steepFieldMapped ∧
    (1, 0) ∈ steepFieldMapped.motion_model_ ∧ InMap steepFieldMapped (0 + 1) (0 + 0) ∧
    searchNeighbours steepFieldMapped 0 0 = some (FLT_MAX, -1, -1) ∧
    (∃ d, planStep hypotQ steepFieldMapped 3 3 0 0 [] = some (-1, -1, d, [(-2, -2)])) ∧
    ¬ InMap steepFieldMapped (-1) (-1) := by
  refine ⟨construct_steepField, generatePotentialMap_steepField,
    by simp [steepFieldMapped, steepField, smallField, motionModel8], ?_,
    searchNeighbours_steepFieldMapped, ?_, ?_⟩
  · unfold InMap
    have hx : xw steepFieldMapped = 2 := smallField_xw
    have hy : yw steepFieldMapped = 2 := smallField_yw
    rw [hx, hy]
    omega
  · unfold planStep
    rw [searchNeighbours_steepFieldMapped]
    refine ⟨hypotQ (3 - gridToWorld steepFieldMapped (-1) steepFieldMapped.minx_)
      (3 - gridToWorld steepFieldMapped (-1) steepFieldMapped.miny_), ?_⟩
    simp only [Option.some.injEq, Prod.mk.injEq, true_and]
    norm_num [gridToWorld, steepFieldMapped, steepField, smallField]
  · unfold InMap
    omega

theorem plan_runs_forever_witness :
    ((0 ≤ xw smallField ∧ IsInt (xw smallField)) ∧
      (0 ≤ yw smallField ∧ IsInt (yw smallField))) ∧
    IsEightConnected smallField.motion_model_ ∧
    ((IsInt (worldToGrid smallField 0 smallField.minx_ - 1) ∧
        IsInt (worldToGrid smallField 0 smallField.minx_ + 1)) ∧
      (IsInt (worldToGrid smallField 0 smallField.miny_ - 1) ∧
        IsInt (worldToGrid smallField 0 smallField.miny_ + 1))) ∧
    smallField.reso_ ≤ hypotQ (0 - 1) (0 - 1) ∧
    (∀ a b : ℤ, InMap smallField a b ∨ (a = -1 ∧ b = -1) →
      smallField.reso_ ≤ hypotQ (1 - (a * smallField.reso_ + smallField.minx_))
        (1 - (b * smallField.reso_ + smallField.miny_))) ∧
    ∀ fuel, plan hypotQ smallField 0 0 1 1 fuel = .outOfFuel :=
  have hdim : (0 ≤ xw smallField ∧ IsInt (xw smallField)) ∧
      (0 ≤ yw smallField ∧ IsInt (yw smallField)) := by
    rw [smallField_xw, smallField_yw]
    exact ⟨⟨by omega, isInt_two⟩, ⟨by omega, isInt_two⟩⟩
  have hw : ∀ m : ℚ, m = -1 → worldToGrid smallField 0 m = 1 := by
    rintro m rfl
    have e : ((0 : ℚ) - -1) / smallField.reso_ = ((1 : ℤ) : ℚ) := by norm_num [smallField]
    rw [worldToGrid, e, cppRound_intCast]
  have hstart : (IsInt (worldToGrid smallField 0 smallField.minx_ - 1) ∧
        IsInt (worldToGrid smallField 0 smallField.minx_ + 1)) ∧
      (IsInt (worldToGrid smallField 0 smallField.miny_ - 1) ∧
        IsInt (worldToGrid smallField 0 smallField.miny_ + 1)) := by
    rw [hw smallField.minx_ rfl, hw smallField.miny_ rfl]
    unfold IsInt
    omega
  have hfar0 : smallField.reso_ ≤ hypotQ (0 - 1) (0 - 1) := by
    norm_num [smallField, hypotQ, Rat.sqrt]
  have hfar : ∀ a b : ℤ, InMap smallField a b ∨ (a = -1 ∧ b = -1) →
      smallField.reso_ ≤ hypotQ (1 - (a * smallField.reso_ + smallField.minx_))
        (1 - (b * smallField.reso_ + smallField.miny_)) := by
    intro a b h
    unfold InMap at h
    rw [smallField_xw, smallField_yw] at h
    have ha : a = -1 ∨ a = 0 ∨ a = 1 := by omega
    have hb : b = -1 ∨ b = 0 ∨ b = 1 := by omega
    rcases ha with rfl | rfl | rfl <;> rcases hb with rfl | rfl | rfl <;>
      norm_num [smallField, hypotQ, Rat.sqrt]
  ⟨hdim, isEightConnected_motionModel8, hstart, hfar0, hfar,
    (plan_runs_forever hypotQ smallField 0 0 1 1 hdim isEightConnected_motionModel8 hstart
      hfar0 hfar).1⟩

/-- Claim C12 as stated fails: the loop has no cap.  On `smallField`, whose map
has its cells at the world coordinates `-1` and `0` of each axis, the start
`(-1, -1)` and the goal `(1, 1)` are both in the bounding region
`[-1, 1] × [-1, 1]`, and every cell that the search can move to is at a distance
of at least `1 = resolution` from the goal: whatever the number of passes, the
loop is still running, and `plan` reports no failure. -/
theorem plan_never_returns_smallField :
    construct motionModel8 [0] [0] 1 (1 / 2) 1 1 2 = some smallField ∧
    (smallField.minx_ ≤ -1 ∧ (1 : ℚ) ≤ smallField.maxx_ ∧
      smallField.miny_ ≤ -1 ∧ (1 : ℚ) ≤ smallField.maxy_) ∧
    ∀ fuel, plan hypotQ smallField (-1) (-1) 1 1 fuel = .outOfFuel := by
  refine ⟨construct_smallField, by norm_num [smallField], ?_⟩
  have hw : ∀ m : ℚ, m = -1 → worldToGrid smallField (-1) m = 0 := by
    rintro m rfl
    have e : ((-1 : ℚ) - -1) / smallField.reso_ = ((0 : ℤ) : ℚ) := by norm_num [smallField]
    rw [worldToGrid, e, cppRound_intCast]
  apply plan_outOfFuel_of_far hypotQ smallField (-1) (-1) 1 1
  · rw [smallField_xw, smallField_yw]
    exact ⟨⟨by omega, isInt_two⟩, ⟨by omega, isInt_two⟩⟩
  · exact isEightConnected_motionModel8
  · rw [hw smallField.minx_ rfl, hw smallField.miny_ rfl]
    unfold IsInt
    omega
  · norm_num [smallField, hypotQ, Rat.sqrt]
  · intro a b h
    unfold InMap at h
    rw [smallField_xw, smallField_yw] at h
    have ha : a = -1 ∨ a = 0 ∨ a = 1 := by omega
    have hb : b = -1 ∨ b = 0 ∨ b = 1 := by omega
    rcases ha with rfl | rfl | rfl <;> rcases hb with rfl | rfl | rfl <;>
      norm_num [smallField, hypotQ, Rat.sqrt]

theorem plan_checks_no_bounds_witness :
    (0 < smallField.reso_ ∧ (0 ≤ xw smallField ∧ IsInt (xw smallField)) ∧
      (0 ≤ yw smallField ∧ IsInt (yw smallField))) ∧
    ((IsInt (worldToGrid smallField (-2) smallField.minx_) ∧
        IsInt (worldToGrid smallField (-1) smallField.miny_)) ∧
      ∀ m ∈ smallField.motion_model_,
        IsInt (worldToGrid smallField (-2) smallField.minx_ + m.1) ∧
          IsInt (worldToGrid smallField (-1) smallField.miny_ + m.2)) ∧
    (-2 : ℚ) < smallField.minx_ ∧
    ¬ InMap smallField (worldToGrid smallField (-2) smallField.minx_)
      (worldToGrid smallField (-1) smallField.miny_) ∧
    smallField.reso_ ≤ hypotQ (-2 - 0) (-1 - -1) ∧
    ∃ g, generatePotentialMap hypotQ smallField 0 (-1) = some g ∧
      ∃ p a b,
        searchNeighbours g (worldToGrid smallField (-2) smallField.minx_)
          (worldToGrid smallField (-1) smallField.miny_) = some (p, a, b) ∧
        (InMap smallField a b ∨ (a = -1 ∧ b = -1)) ∧
        ∀ fuel, plan hypotQ smallField (-2) (-1) 0 (-1) (fuel + 1) =
          planLoop hypotQ g 0 (-1) fuel a b
            (hypotQ (0 - (a * smallField.reso_ + smallField.minx_))
              (-1 - (b * smallField.reso_ + smallField.miny_)))
            [(a * smallField.reso_ + smallField.minx_,
              b * smallField.reso_ + smallField.miny_)] :=
  have hdom : 0 < smallField.reso_ ∧ (0 ≤ xw smallField ∧ IsInt (xw smallField)) ∧
      (0 ≤ yw smallField ∧ IsInt (yw smallField)) := by
    rw [smallField_xw, smallField_yw]
    exact ⟨by norm_num [smallField], ⟨by omega, isInt_two⟩, ⟨by omega, isInt_two⟩⟩
  have hwx : worldToGrid smallField (-2) smallField.minx_ = -1 := by
    have e : ((-2 : ℚ) - smallField.minx_) / smallField.reso_ = ((-1 : ℤ) : ℚ) := by
      norm_num [smallField]
    rw [worldToGrid, e, cppRound_intCast]
  have hwy : worldToGrid smallField (-1) smallField.miny_ = 0 := by
    have e : ((-1 : ℚ) - smallField.miny_) / smallField.reso_ = ((0 : ℤ) : ℚ) := by
      norm_num [smallField]
    rw [worldToGrid, e, cppRound_intCast]
  have hstart : (IsInt (worldToGrid smallField (-2) smallField.minx_) ∧
        IsInt (worldToGrid smallField (-1) smallField.miny_)) ∧
      ∀ m ∈ smallField.motion_model_,
        IsInt (worldToGrid smallField (-2) smallField.minx_ + m.1) ∧
          IsInt (worldToGrid smallField (-1) smallField.miny_ + m.2) := by
    rw [hwx, hwy]
    refine ⟨⟨by unfold IsInt; omega, by unfold IsInt; omega⟩, ?_⟩
    exact neighbours_isInt_motionModel8 (-1) 0 (by omega) (by omega)
  have hout : ¬ InMap smallField (worldToGrid smallField (-2) smallField.minx_)
      (worldToGrid smallField (-1) smallField.miny_) := by
    rw [hwx, hwy]
    unfold InMap
    omega
  have hfar : smallField.reso_ ≤ hypotQ (-2 - 0) (-1 - -1) := by
    norm_num [smallField, hypotQ, Rat.sqrt]
  have h := plan_checks_no_bounds hypotQ smallField (-2) (-1) 0 (-1) hdom hstart
  ⟨hdom, hstart, by norm_num [smallField], hout, hfar,
    h.elim fun g hg => ⟨g, hg.1, hg.2.2.1 hfar⟩⟩

/-- Claim C13 as stated fails: `plan` checks no bound.  The start `(-2, -1)` lies
left of the bounding region `[-1, 1] × [-1, 1]` of `smallField`; its cell
`(-1, 0)` is outside the map.  `plan` to the goal `(0, -1)` does not fail: the
first pass moves to the cell `(0, 0)`, the second to the goal cell, and the call
returns the path of these two waypoints. -/
theorem plan_from_outside_returns_path :
    construct motionModel8 [0] [0] 1 (1 / 2) 1 1 2 = some smallField ∧
    (-2 : ℚ) < smallField.minx_ ∧
    plan hypotQ smallField (-2) (-1) 0 (-1) 5 = .done [(-1, -1), (0, -1)] :=
  ⟨construct_smallField, by norm_num [smallField], plan_smallField_from_outside⟩

theorem no_neighbour_unitFieldMapped :
    ∀ m ∈ unitFieldMapped.motion_model_, ¬ InMap unitFieldMapped (0 + m.1) (0 + m.2) := by
  intro m hm
  obtain ⟨_, _, _, _, hne⟩ := (isEightConnected_motionModel8 m.1 m.2).mp hm
  unfold InMap
  rw [unitFieldMapped_xw, unitFieldMapped_yw]
  intro h
  apply hne
  have h1 : m.1 = 0 := by omega
  have h2 : m.2 = 0 := by omega
  rw [h1, h2]

theorem search_step_without_neighbour_witness :
    generatePotentialMap hypotQ unitField (-3 / 2) (-3 / 2) = some unitFieldMapped ∧
    (IsInt (xw unitField) ∧ IsInt (yw unitField)) ∧
    (∀ m ∈ unitFieldMapped.motion_model_, IsInt (0 + m.1) ∧ IsInt (0 + m.2)) ∧
    (∀ m ∈ unitFieldMapped.motion_model_, ¬ InMap unitFieldMapped (0 + m.1) (0 + m.2)) ∧
    searchNeighbours unitFieldMapped 0 0 = some (FLT_MAX, -1, -1) ∧
    ∃ s, planStep hypotQ unitFieldMapped (-3 / 2) (-3 / 2) 0 0 [] = some s :=
  have hnb : ∀ m ∈ unitFieldMapped.motion_model_, IsInt (0 + m.1) ∧ IsInt (0 + m.2) :=
    neighbours_isInt_motionModel8 0 0 (by omega) (by omega)
  ⟨generatePotentialMap_unitField, isInt_unitField, hnb, no_neighbour_unitFieldMapped,
    search_step_without_neighbour hypotQ unitField unitFieldMapped (-3 / 2) (-3 / 2) 0 0 []
      generatePotentialMap_unitField isInt_unitField hnb no_neighbour_unitFieldMapped⟩

/-- Claim C14 as stated fails: the step does not fail.  The field `unitField` is
the one the constructor builds with `resolution = 1` and `area_width = 1`; its
map has the single cell `(0, 0)`, at the corner `(-1/2, -1/2)` of the bounding
region, and all eight neighbours of that cell are outside the map.  From that
start the first pass assigns `ix = minix = -1` and `iy = miniy = -1` and appends
the waypoint `(-3/2, -3/2)`, a point outside the bounding region; with the goal
at that point the call returns this path. -/
theorem plan_moves_without_neighbour :
    construct motionModel8 [0] [0] 1 (1 / 2) 1 1 1 = some unitField ∧
    generatePotentialMap hypotQ unitField (-3 / 2) (-3 / 2) = some unitFieldMapped ∧
    (∀ m ∈ unitFieldMapped.motion_model_, ¬ InMap unitFieldMapped (0 + m.1) (0 + m.2)) ∧
    (∃ d, planStep hypotQ unitFieldMapped (-3 / 2) (-3 / 2) 0 0 []
      = some (-1, -1, d, [(-3 / 2, -3 / 2)])) ∧
    plan hypotQ unitField (-1 / 2) (-1 / 2) (-3 / 2) (-3 / 2) 5 = .done [(-3 / 2, -3 / 2)] ∧
    (-3 / 2 : ℚ) < unitField.minx_ := by
  refine ⟨construct_unitField, generatePotentialMap_unitField, no_neighbour_unitFieldMapped, ?_,
    plan_unitField, by norm_num [unitField, smallField]⟩
  unfold planStep
  rw [searchNeighbours_unitFieldMapped]
  refine ⟨hypotQ (-3 / 2 - gridToWorld unitFieldMapped (-1) unitFieldMapped.minx_)
    (-3 / 2 - gridToWorld unitFieldMapped (-1) unitFieldMapped.miny_), ?_⟩
  simp only [Option.some.injEq, Prod.mk.injEq, true_and]
  norm_num [gridToWorld, unitFieldMapped, unitField, smallField]

theorem plan_last_waypoint_closest_witness :
    plan hypotQ smallField (-2) (-1) 0 (-1) 5 = .done ([(-1, -1)] ++ [(0, -1)]) ∧
    ∀ v ∈ ([(-1, -1)] : Path), smallField.reso_ ≤ hypotQ (0 - v.1) (-1 - v.2) ∧
      hypotQ (0 - 0) (-1 - -1) < hypotQ (0 - v.1) (-1 - v.2) :=
  ⟨plan_smallField_from_outside,
    plan_last_waypoint_closest hypotQ smallField (-2) (-1) 0 (-1) 5 [(-1, -1)] (0, -1)
      plan_smallField_from_outside⟩

theorem plan_reads_in_bounds_witness :
    (IsInt (xw smallField) ∧ IsInt (yw smallField)) ∧
    (∀ fuel, plan hypotQ smallField (-2) (-1) 0 (-1) fuel ≠ .indexError) ∧
    ∀ g, generatePotentialMap hypotQ smallField 0 (-1) = some g →
      ∀ inx iny, IsInt inx → IsInt iny →
        candidatePotential g inx iny ≠ none ∧
        (readsMap g inx iny →
          (0 ≤ inx ∧ inx < xw smallField ∧ 0 ≤ iny ∧ iny < yw smallField) ∧
          ∃ v, storedPotential g inx iny = some v ∧
            candidatePotential g inx iny = some v) :=
  ⟨isInt_smallField, plan_reads_in_bounds hypotQ smallField (-2) (-1) 0 (-1) isInt_smallField⟩

theorem search_stays_in_map_witness :
    generatePotentialMap hypotQ smallField 0 (-1) = some smallFieldMapped ∧
    (IsInt (xw smallField) ∧ IsInt (yw smallField)) ∧
    IsEightConnected smallField.motion_model_ ∧
    (∀ row ∈ smallFieldMapped.pmap_, ∀ v ∈ row, v < FLT_MAX) ∧
    (2 ≤ xw smallField ∨ 2 ≤ yw smallField) ∧
    InMap smallField (worldToGrid smallField (-1) smallField.minx_)
      (worldToGrid smallField (-1) smallField.miny_) ∧
    ∀ n ix iy d path,
      planIterate hypotQ smallFieldMapped 0 (-1) n
          (planStart hypotQ smallFieldMapped (-1) (-1) 0 (-1)) = some (ix, iy, d, path) →
      InMap smallField ix iy ∧
      ∀ ix2 iy2 d2 path2,
        planIterate hypotQ smallFieldMapped 0 (-1) (n + 1)
            (planStart hypotQ smallFieldMapped (-1) (-1) 0 (-1))
            = some (ix2, iy2, d2, path2) →
          InMap smallField ix2 iy2 ∧
          (-1 ≤ ix2 - ix ∧ ix2 - ix ≤ 1 ∧ -1 ≤ iy2 - iy ∧ iy2 - iy ≤ 1 ∧
            (ix2 - ix, iy2 - iy) ≠ (0, 0)) ∧
          path2 = path ++ [(ix2 * smallField.reso_ + smallField.minx_,
            iy2 * smallField.reso_ + smallField.miny_)] :=
  have hbelow : ∀ row ∈ smallFieldMapped.pmap_, ∀ v ∈ row, v < FLT_MAX := by
    intro row hrow v hv
    simp only [smallFieldMapped, List.mem_cons, List.mem_singleton, List.mem_nil_iff,
      or_false] at hrow
    rcases hrow with rfl | rfl <;>
      simp only [List.mem_cons, List.mem_singleton, List.mem_nil_iff, or_false] at hv <;>
      rcases hv with rfl | rfl <;> norm_num [FLT_MAX]
  have htwo : 2 ≤ xw smallField ∨ 2 ≤ yw smallField := Or.inl (by rw [smallField_xw])
  have hw : ∀ m : ℚ, m = -1 → worldToGrid smallField (-1) m = 0 := by
    rintro m rfl
    have e : ((-1 : ℚ) - -1) / smallField.reso_ = ((0 : ℤ) : ℚ) := by norm_num [smallField]
    rw [worldToGrid, e, cppRound_intCast]
  have hstart : InMap smallField (worldToGrid smallField (-1) smallField.minx_)
      (worldToGrid smallField (-1) smallField.miny_) := by
    rw [hw smallField.minx_ rfl, hw smallField.miny_ rfl]
    unfold InMap
    rw [smallField_xw, smallField_yw]
    omega
  ⟨generatePotentialMap_smallField, isInt_smallField, isEightConnected_motionModel8, hbelow,
    htwo, hstart,
    search_stays_in_map hypotQ smallField smallFieldMapped (-1) (-1) 0 (-1)
      generatePotentialMap_smallField isInt_smallField isEightConnected_motionModel8 hbelow
      htwo hstart⟩

end PotentialFieldPlanner
